import Mathlib

/-!
Verification development for the GoblinOS orchestration compiler
(`desktop/src-tauri/src/orchestration.rs`).

The Rust module is shallowly embedded here:

* strings are handled as `String` at the interface and `List Char` inside,
  mirroring Rust `&str` values (lengths measured in UTF-8 bytes where the
  source calls `.len()` or `.find(..)`, via `Char.utf8Size`);
* the three `regex::Regex` patterns used by `parse_task` are embedded by an
  executable backtracking searcher (`regexCap`) with the leftmost-match,
  lazy `(.+?)` and greedy `\s+` semantics of the `regex` crate (`.` does not
  match a newline; `$` matches only the end of the haystack);
* `\s` and `str::trim` both use the Unicode `White_Space` property in Rust;
  `isWs` lists exactly those code points;
* the nondeterministic id/timestamp generation (`chrono` + `uuid`) is
  abstracted by an `IdSupply` record supplying the plan id, the creation
  timestamp and the id of the n-th created step;
* the unbounded recursion of `get_step_depth` is embedded with explicit
  fuel; theorems below show that on every compiled plan the result is
  independent of the fuel once it reaches `steps.length`, which is the
  fuel used by `calculateBatches`.
-/

namespace GoblinOS

set_option maxRecDepth 200000

/-- Unicode `White_Space` code points: the set matched by Rust's regex `\s`
and trimmed by Rust's `str::trim`. -/
def isWs (c : Char) : Bool :=
  c = ' ' || c = '\t' || c = '\n' || c = '\x0b' || c = '\x0c' || c = '\r' ||
  c = '\x85' || c = '\xa0' || c = '\u1680' ||
  ('\u2000' ≤ c && c ≤ '\u200a') ||
  c = '\u2028' || c = '\u2029' || c = '\u202f' || c = '\u205f' || c = '\u3000'

/-- Drop leading and trailing whitespace, as Rust `str::trim`. -/
def trimList (l : List Char) : List Char :=
  ((l.dropWhile isWs).reverse.dropWhile isWs).reverse

/-- Does `l` contain `pat` as a contiguous sublist?  Embeds Rust
`str::contains` for a nonempty literal pattern. -/
def containsSub (pat : List Char) : List Char → Bool
  | [] => pat.isEmpty
  | c :: cs => pat.isPrefixOf (c :: cs) || containsSub pat cs

/-- Index (in characters) of the first occurrence of `pat` in `l`, if any:
Rust `str::find` for a literal pattern, restricted to the places it is used
(on patterns where character index and byte index coincide or only
existence is consumed). -/
def findPat (pat : List Char) : List Char → Option Nat
  | [] => none
  | c :: cs =>
    if pat.isPrefixOf (c :: cs) then some 0
    else (findPat pat cs).map (fun i => i + 1)

/-- Split at the leftmost occurrence, recursing on explicit fuel so the
definition reduces definitionally.  Each split step consumes at least
`pat.length ≥ 1` characters, so fuel `l.length` always suffices: when the
fuel runs out the list is empty and `[l]` is the correct answer anyway. -/
def splitOnFuel (pat : List Char) : Nat → List Char → List (List Char)
  | 0, l => [l]
  | fuel + 1, l =>
    match findPat pat l with
    | none => [l]
    | some i => l.take i :: splitOnFuel pat fuel (l.drop (i + pat.length))

/-- Split `l` at each (leftmost, non-overlapping) occurrence of the nonempty
pattern `pat`: Rust `str::split` with a literal pattern. -/
def splitOnL (pat : List Char) (l : List Char) : List (List Char) :=
  if pat.isEmpty then [l] else splitOnFuel pat l.length l

/-- UTF-8 byte length of a char list: Rust `str::len`. -/
def byteLen (l : List Char) : Nat := (l.map Char.utf8Size).sum

/-- Split at the first `':'`: chars strictly before it and strictly after it. -/
def colonSplit : List Char → Option (List Char × List Char)
  | [] => none
  | c :: cs =>
    if c = ':' then some ([], cs)
    else (colonSplit cs).map (fun p => (c :: p.1, p.2))

/-! ### Regex engine

The three patterns used by `OrchestrationParser::parse_task` all have the
shape `(.+?)<tail>`: a lazy nonempty group of non-newline characters
followed by a fixed tail.  `regex::Regex::captures` finds the match with
the leftmost starting position and, at that position, the lazy group takes
as few characters as possible.  `groupSearch` implements the lazy group at
a fixed starting position; `regexCap` scans starting positions from the
left. -/

/-- Lazy `(.+?)` at a fixed start: extend the group one character at a time
(never across a newline, since `.` does not match `\n`), returning as soon
as `tailm` accepts the remainder. -/
def groupSearch (tailm : List Char → Option α) : List Char → List Char → Option (List Char × α)
  | _, [] => none
  | acc, c :: cs =>
    if c = '\n' then none
    else
      match tailm cs with
      | some a => some (acc ++ [c], a)
      | none => groupSearch tailm (acc ++ [c]) cs

/-- Leftmost match of `(.+?)<tail>`: try each starting position from the
left; the captured group (trailing part handled by `tailm`) is returned. -/
def regexCap (tailm : List Char → Option α) : List Char → Option (List Char × α)
  | [] => none
  | c :: cs =>
    match groupSearch tailm [] (c :: cs) with
    | some r => some r
    | none => regexCap tailm cs

/-- Tail of `(.+?)\s+IF_(SUCCESS|FAILURE)\s*$` after the group: mandatory
whitespace, the literal, then only whitespace to the end of the haystack.
Returns `true` for `SUCCESS`.  The greedy `\s+` is `dropWhile` because the
literal starts with a non-whitespace character. -/
def matchTail1 (l : List Char) : Option Bool :=
  match l with
  | [] => none
  | c :: _ =>
    if isWs c then
      let r := l.dropWhile isWs
      if ("IF_SUCCESS".toList).isPrefixOf r && (r.drop 10).all isWs then some true
      else if ("IF_FAILURE".toList).isPrefixOf r && (r.drop 10).all isWs then some false
      else none
    else none

def isQuote (c : Char) : Bool := c = '"' || c = '\''

/-- Tail of `(.+?)\s+IF_CONTAINS\s*\(\s*["']([^"']+)["']\s*\)\s*$` after the
group; returns the captured value.  Note that, as in the source regex, the
opening and closing quote characters need not agree. -/
def matchTail2 (l : List Char) : Option (List Char) :=
  match l with
  | [] => none
  | c :: _ =>
    if isWs c then
      if ("IF_CONTAINS".toList).isPrefixOf (l.dropWhile isWs) then
        match ((l.dropWhile isWs).drop 11).dropWhile isWs with
        | [] => none
        | c2 :: r2 =>
          if c2 = '(' then
            match r2.dropWhile isWs with
            | [] => none
            | q :: r4 =>
              if isQuote q then
                if (r4.takeWhile (fun d => !(isQuote d))).isEmpty then none
                else
                  match r4.drop (r4.takeWhile (fun d => !(isQuote d))).length with
                  | [] => none
                  | _ :: r6 =>
                    match r6.dropWhile isWs with
                    | [] => none
                    | c3 :: r8 =>
                      if c3 = ')' then
                        if r8.all isWs then some (r4.takeWhile (fun d => !(isQuote d)))
                        else none
                      else none
              else none
          else none
      else none
    else none

/-- Tail of `(.+?)\s+IF\s+(success|failure|passing|failing)` after the
group: no end anchor, so anything may follow the keyword.  Returns `true`
for `success`/`passing`, `false` for `failure`/`failing` (alternation is
tried left to right, as in the source). -/
def matchTail3 (l : List Char) : Option Bool :=
  match l with
  | [] => none
  | c :: _ =>
    if isWs c then
      let r := l.dropWhile isWs
      if ("IF".toList).isPrefixOf r then
        match r.drop 2 with
        | c1 :: _ =>
          if isWs c1 then
            let r2 := (r.drop 2).dropWhile isWs
            if ("success".toList).isPrefixOf r2 then some true
            else if ("failure".toList).isPrefixOf r2 then some false
            else if ("passing".toList).isPrefixOf r2 then some true
            else if ("failing".toList).isPrefixOf r2 then some false
            else none
          else none
        | [] => none
      else none
    else none

/-! ### Data model (structs and enums of `orchestration.rs`) -/

inductive ConditionOperator
  | IfSuccess
  | IfFailure
  | IfContains
deriving DecidableEq

inductive StepStatus
  | Pending
  | Running
  | Completed
  | Failed
  | Skipped
deriving DecidableEq

structure StepCondition where
  step_id : String
  operator : ConditionOperator
  value : Option String
deriving DecidableEq

/-- Timestamps are abstracted as `Nat` (milliseconds since epoch). -/
structure StepResult where
  output : String
  error : Option String
  duration : Nat
  started_at : Nat
  completed_at : Nat
deriving DecidableEq

structure OrchestrationStep where
  id : String
  goblin_id : String
  task : String
  dependencies : List String
  condition : Option StepCondition
  status : StepStatus
  result : Option StepResult
deriving DecidableEq

inductive PlanStatus
  | Pending
  | Running
  | Completed
  | Failed
  | Cancelled
deriving DecidableEq

structure PlanMetadata where
  total_steps : Nat
  parallel_batches : Nat
  estimated_duration : Option String
  original_text : Option String
deriving DecidableEq

structure OrchestrationPlan where
  id : String
  description : String
  steps : List OrchestrationStep
  created_at : Nat
  status : PlanStatus
  text : Option String
  metadata : PlanMetadata
deriving DecidableEq

/-- The nondeterministic id/timestamp generation of the source
(`chrono::Utc::now` + `uuid::Uuid::new_v4`) abstracted as a supply:
`stepId n` is the id handed to the n-th step created by a `parse` call.
The source guarantees only uniqueness within one plan, modelled below by
`Function.Injective stepId` hypotheses. -/
structure IdSupply where
  planId : String
  createdAt : Nat
  stepId : Nat → String

/-! ### The parser (`OrchestrationParser`) -/

/-- The conditional-suffix extraction of `parse_task` (lines 190-249):
try the `IF_SUCCESS`/`IF_FAILURE` regex, else the `IF_CONTAINS` regex,
else the natural-language `IF <keyword>` regex, each on the original
clause text; on a match, the cleaned text is group 1 trimmed. -/
def condAndClean (l : List Char) : Option StepCondition × List Char :=
  match regexCap matchTail1 l with
  | some (g, isSucc) =>
    (some ⟨"previous",
      if isSucc then ConditionOperator.IfSuccess else ConditionOperator.IfFailure,
      none⟩, trimList g)
  | none =>
    match regexCap matchTail2 l with
    | some (g, v) =>
      (some ⟨"previous", ConditionOperator.IfContains, some ⟨v⟩⟩, trimList g)
    | none =>
      match regexCap matchTail3 l with
      | some (g, isSucc) =>
        (some ⟨"previous",
          if isSucc then ConditionOperator.IfSuccess else ConditionOperator.IfFailure,
          none⟩, trimList g)
      | none => (none, l)

/-- The `goblinId: task` split of `parse_task` (lines 255-264): the first
`':'` must sit at a byte offset strictly between 0 and 30, and the prefix
before it, once trimmed, must contain no space character and have byte
length under 30. -/
def explicitSplit (clean : List Char) : Option (String × String) :=
  match colonSplit clean with
  | none => none
  | some (pre, post) =>
    if 0 < byteLen pre ∧ byteLen pre < 30 then
      let p := trimList pre
      if !p.contains ' ' && byteLen p < 30 then some (⟨p⟩, ⟨trimList post⟩)
      else none
    else none

/-- `OrchestrationParser::parse_task` (lines 184-275), with the generated
step id passed in.  The function never fails in the source (all regex and
capture failures fall through), so it is total here. -/
def parseTask (stepId : String) (dflt : Option String) (clause : List Char) :
    OrchestrationStep :=
  let pc := condAndClean clause
  match explicitSplit pc.2 with
  | some (g, t) =>
    { id := stepId, goblin_id := g, task := t, dependencies := [],
      condition := pc.1, status := StepStatus.Pending, result := none }
  | none =>
    { id := stepId, goblin_id := dflt.getD ("unknown"), task := ⟨pc.2⟩,
      dependencies := [], condition := pc.1, status := StepStatus.Pending,
      result := none }

/-- The `last_goblin_id` update of `parse` (lines 127-132), applied to the
raw clause text: first `':'` at byte offset under 30 (zero allowed, unlike
`parse_task`), trimmed prefix with no space and byte length under 30. -/
def rawExplicit (raw : List Char) : Option String :=
  match colonSplit raw with
  | none => none
  | some (pre, _) =>
    if byteLen pre < 30 then
      let p := trimList pre
      if !p.contains ' ' && byteLen p < 30 then some ⟨p⟩ else none
    else none

def updateLast (lastG : Option String) (raw : List Char) : Option String :=
  match rawExplicit raw with
  | some g => some g
  | none => lastG

/-- `OrchestrationParser::split_by_operator` (lines 174-180): split on the
literal `" <op> "`, trim each piece, drop empty pieces. -/
def splitByOperator (text : List Char) (pat : List Char) : List (List Char) :=
  ((splitOnL pat text).map trimList).filter (fun s => !s.isEmpty)

def THENpat : List Char := (" THEN ").toList
def ANDpat : List Char := (" AND ").toList

/-- The inner clause loop of `parse` (lines 123-139): each clause becomes a
step whose dependencies are the previous phase's step ids; `lastG` threads
the raw-text worker-id updates; `n` counts the steps created so far. -/
def parseClauses (sup : IdSupply) (prevIds : List String) :
    Nat → Option String → List (List Char) → List OrchestrationStep
  | _, _, [] => []
  | n, lastG, t :: ts =>
    { parseTask (sup.stepId n) lastG t with dependencies := prevIds } ::
      parseClauses sup prevIds (n + 1) (updateLast lastG t) ts

/-- The phase loop of `parse` (lines 117-142): each phase is split on
`AND`, its clauses are parsed with `last_goblin_id` reset to the default,
and the resulting step ids become the next phase's dependency list. -/
def parsePhases (sup : IdSupply) (dflt : Option String) :
    Nat → List String → List (List Char) → List OrchestrationStep
  | _, _, [] => []
  | n, prevIds, ph :: phs =>
    let cls := splitByOperator ph ANDpat
    let blk := parseClauses sup prevIds n dflt cls
    blk ++ parsePhases sup dflt (n + cls.length) (blk.map (fun s => s.id)) phs

/-- Same computation as `parsePhases`, keeping the phase blocks separate;
used to state the dependency invariant. -/
def phaseBlocks (sup : IdSupply) (dflt : Option String) :
    Nat → List String → List (List Char) → List (List OrchestrationStep)
  | _, _, [] => []
  | n, prevIds, ph :: phs =>
    let cls := splitByOperator ph ANDpat
    let blk := parseClauses sup prevIds n dflt cls
    blk :: phaseBlocks sup dflt (n + cls.length) (blk.map (fun s => s.id)) phs

/-- `OrchestrationParser::get_step_depth` (lines 288-302).  The source
recursion carries no fuel and terminates only thanks to the dependency
invariant; the embedding makes the recursion structural on an explicit
fuel, and the theorems below show the result is fuel-independent from
`all.length` on for every compiled plan. -/
def getStepDepth (all : List OrchestrationStep) : Nat → OrchestrationStep → Nat
  | 0, _ => 0
  | fuel + 1, step =>
    if step.dependencies.isEmpty then 0
    else
      ((step.dependencies.filterMap (fun depId =>
          (all.find? (fun s => s.id == depId)).map
            (fun dep => getStepDepth all fuel dep + 1))).foldr Nat.max 0)

/-- `OrchestrationParser::calculate_batches` (lines 278-285):
`max(depth) + 1`, with `max` of an empty list read as 0. -/
def calculateBatches (steps : List OrchestrationStep) : Nat :=
  (steps.map (fun st => getStepDepth steps steps.length st)).foldr Nat.max 0 + 1

/-- `OrchestrationParser::parse` (lines 90-171). -/
def compile (sup : IdSupply) (text : String) (dflt : Option String) :
    Except String OrchestrationPlan :=
  if trimList text.data = [] then
    Except.error ("Orchestration text cannot be empty")
  else if ("THEN ".toList).isPrefixOf (trimList text.data) ||
          ("AND ".toList).isPrefixOf (trimList text.data) ||
          ("IF ".toList).isPrefixOf (trimList text.data) then
    Except.error ("Invalid orchestration syntax")
  else if containsSub (" THEN THEN ".toList) text.data ||
          containsSub (" AND AND ".toList) text.data then
    Except.error ("Invalid orchestration syntax")
  else
    let phases := splitByOperator text.data THENpat
    let steps := parsePhases sup dflt 0 [] phases
    let batches := calculateBatches steps
    let ms := batches * 2000
    let dur : String :=
      if ms < 60000 then toString (max (ms / 1000) 1) ++ "s"
      else toString (max (ms / 60000) 1) ++ "m"
    Except.ok
      { id := sup.planId,
        description := ⟨text.data.take 100⟩,
        steps := steps,
        created_at := sup.createdAt,
        status := PlanStatus.Pending,
        text := some text,
        metadata :=
          { total_steps := steps.length,
            parallel_batches := batches,
            estimated_duration := some dur,
            original_text := some text } }

/-! ### Concrete id supplies and helpers for instantiating theorems -/

/-- A canonical supply with trivially injective step ids. -/
def natSupply : IdSupply :=
  { planId := "orch_0", createdAt := 0,
    stepId := fun n => ⟨List.replicate (n + 1) 's'⟩ }

/-- A second supply, everywhere different from `natSupply`. -/
def altSupply : IdSupply :=
  { planId := "orch_1", createdAt := 7,
    stepId := fun n => ⟨List.replicate (n + 1) 't'⟩ }

def emptyPlan : OrchestrationPlan :=
  { id := "", description := "", steps := [], created_at := 0,
    status := PlanStatus.Pending, text := none,
    metadata := { total_steps := 0, parallel_batches := 0,
                  estimated_duration := none, original_text := none } }

/-- Extract the plan from a successful compile (default otherwise). -/
def getPlan (e : Except String OrchestrationPlan) : OrchestrationPlan :=
  match e with
  | Except.ok p => p
  | Except.error _ => emptyPlan

/-! ### Structural lemmas about the clause and phase loops -/

theorem parseClauses_length (sup : IdSupply) (prevIds : List String) :
    ∀ cls n lastG, (parseClauses sup prevIds n lastG cls).length = cls.length := by
  intro cls
  induction cls with
  | nil => intro n lastG; rfl
  | cons t ts ih => intro n lastG; simp [parseClauses, ih]

theorem parseClauses_deps (sup : IdSupply) (prevIds : List String) :
    ∀ cls n lastG st, st ∈ parseClauses sup prevIds n lastG cls →
      st.dependencies = prevIds := by
  intro cls
  induction cls with
  | nil => intro n lastG st h; simp [parseClauses] at h
  | cons t ts ih =>
    intro n lastG st h
    simp only [parseClauses, List.mem_cons] at h
    rcases h with h | h
    · subst h; rfl
    · exact ih (n + 1) (updateLast lastG t) st h

theorem parseClauses_ids (sup : IdSupply) (prevIds : List String) :
    ∀ cls n lastG, (parseClauses sup prevIds n lastG cls).map (fun s => s.id) =
      (List.range cls.length).map (fun j => sup.stepId (n + j)) := by
  intro cls
  induction cls with
  | nil => intro n lastG; rfl
  | cons t ts ih =>
    intro n lastG
    have hhead : (parseTask (sup.stepId n) lastG t).id = sup.stepId n := by
      rw [parseTask]
      rcases h : explicitSplit (condAndClean t).2 with _ | ⟨g, tk⟩ <;> simp [h]
    simp only [parseClauses, List.map_cons, ih (n + 1) (updateLast lastG t),
      List.length_cons, List.range_succ_eq_map, List.map_map]
    refine List.cons_eq_cons.2 ⟨by simpa using hhead, ?_⟩
    refine List.map_congr_left ?_
    intro j _
    exact congrArg sup.stepId (by simp [Nat.succ_eq_add_one]; omega)

theorem parsePhases_eq_join (sup : IdSupply) (dflt : Option String) :
    ∀ phs n prevIds, parsePhases sup dflt n prevIds phs =
      (phaseBlocks sup dflt n prevIds phs).flatten := by
  intro phs
  induction phs with
  | nil => intro n prevIds; rfl
  | cons ph rest ih =>
    intro n prevIds
    simp only [parsePhases, phaseBlocks, List.flatten_cons]
    rw [ih]

theorem parsePhases_ids (sup : IdSupply) (dflt : Option String) :
    ∀ phs n prevIds, (parsePhases sup dflt n prevIds phs).map (fun s => s.id) =
      (List.range (parsePhases sup dflt n prevIds phs).length).map
        (fun j => sup.stepId (n + j)) := by
  intro phs
  induction phs with
  | nil => intro n prevIds; rfl
  | cons ph rest ih =>
    intro n prevIds
    simp only [parsePhases, List.map_append, List.length_append]
    rw [parseClauses_ids sup prevIds _ n dflt,
      ih (n + (splitByOperator ph ANDpat).length), List.range_add, List.map_append,
      List.map_map, parseClauses_length]
    refine congrArg _ ?_
    refine List.map_congr_left ?_
    intro j _
    exact congrArg sup.stepId (by simp; omega)

theorem parsePhases_nodup (sup : IdSupply) (dflt : Option String)
    (hinj : Function.Injective sup.stepId) :
    ∀ phs n prevIds,
      ((parsePhases sup dflt n prevIds phs).map (fun s => s.id)).Nodup := by
  intro phs n prevIds
  rw [parsePhases_ids]
  refine List.Nodup.map ?_ (List.nodup_range _)
  intro a b h
  have := hinj h
  omega

/-! ### Depth computation: helpers -/

theorem find_of_nodup (S : List OrchestrationStep)
    (hnd : (S.map (fun s => s.id)).Nodup) (st : OrchestrationStep) (h : st ∈ S) :
    S.find? (fun s => s.id == st.id) = some st := by
  induction S with
  | nil => simp at h
  | cons a S' ih =>
    rcases List.mem_cons.1 h with rfl | hmem
    · simp [List.find?]
    · by_cases heq : a.id = st.id
      · exfalso
        have hin : st.id ∈ S'.map (fun s => s.id) := List.mem_map_of_mem _ hmem
        have hout : a.id ∉ S'.map (fun s => s.id) := (List.nodup_cons.1 hnd).1
        rw [heq] at hout
        exact hout hin
      · have : (a.id == st.id) = false := beq_eq_false_iff_ne.2 heq
        simp [List.find?, this]
        exact ih (List.nodup_cons.1 hnd).2 hmem

theorem filterMap_all_const {α : Type} (c : Nat) :
    ∀ (l : List α) (fn : α → Option Nat), (∀ a ∈ l, fn a = some c) →
      l.filterMap fn = List.replicate l.length c := by
  intro l
  induction l with
  | nil => intro fn _; rfl
  | cons a l' ih =>
    intro fn h
    rw [List.filterMap_cons, h a (List.mem_cons_self a l')]
    simp [List.replicate_succ, ih fn (fun x hx => h x (List.mem_cons_of_mem a hx))]

theorem filterMap_map_const {α β : Type} (c : Nat) :
    ∀ (l : List α) (fn : α → Option β) (g : β → Nat),
      (∀ a ∈ l, ∃ b, fn a = some b ∧ g b = c) →
      (l.filterMap fn).map g = List.replicate l.length c := by
  intro l
  induction l with
  | nil => intro fn g _; rfl
  | cons a l' ih =>
    intro fn g h
    obtain ⟨b, hb, hgb⟩ := h a (List.mem_cons_self a l')
    rw [List.filterMap_cons, hb]
    simp [List.replicate_succ, hgb,
      ih fn g (fun x hx => h x (List.mem_cons_of_mem a hx))]

theorem map_const_of {α : Type} (c : Nat) :
    ∀ (l : List α) (f : α → Nat), (∀ a ∈ l, f a = c) →
      l.map f = List.replicate l.length c := by
  intro l
  induction l with
  | nil => intro f _; rfl
  | cons a l' ih =>
    intro f h
    rw [List.map_cons, h a (List.mem_cons_self a l')]
    simp [List.replicate_succ, ih f (fun x hx => h x (List.mem_cons_of_mem a hx))]

theorem foldr_max_replicate : ∀ (k c : Nat), 0 < k →
    (List.replicate k c).foldr Nat.max 0 = c := by
  intro k
  induction k with
  | zero => intro c h; omega
  | succ k ih =>
    intro c _
    rcases Nat.eq_zero_or_pos k with hk | hk
    · subst hk; simp
    · simp [List.replicate_succ, ih c hk]

/-- Invariant carried between phases: `d` is the depth every step of the
next phase will get, and when the previous phase was nonempty each of its
ids resolves (via `find?` over the whole plan) to a step of stable depth
`d - 1`. -/
def PrevOk (S : List OrchestrationStep) (prevIds : List String) (d : Nat) : Prop :=
  (prevIds = [] ∧ d = 0) ∨
  (prevIds ≠ [] ∧ 0 < d ∧ ∀ i ∈ prevIds, ∃ st,
    S.find? (fun s => s.id == i) = some st ∧
    ∀ f, d - 1 ≤ f → getStepDepth S f st = d - 1)

theorem step_depth_of_prev (S : List OrchestrationStep) (prevIds : List String)
    (d : Nat) (hPrev : PrevOk S prevIds d) (st : OrchestrationStep)
    (hdep : st.dependencies = prevIds) :
    ∀ f, d ≤ f → getStepDepth S f st = d := by
  rcases hPrev with ⟨hids, hd⟩ | ⟨hne, hdpos, hres⟩
  · intro f _
    subst hd
    cases f with
    | zero => rfl
    | succ f => simp [getStepDepth, hdep, hids]
  · intro f hf
    cases f with
    | zero => omega
    | succ f =>
      have hemp : prevIds.isEmpty = false := by
        cases prevIds with
        | nil => exact absurd rfl hne
        | cons x xs => rfl
      rw [getStepDepth, hdep, hemp]
      simp only [Bool.false_eq_true, if_false]
      have hall : ∀ i ∈ prevIds,
          (S.find? (fun s => s.id == i)).map
            (fun dep => getStepDepth S f dep + 1) = some d := by
        intro i hi
        obtain ⟨sti, hfind, hstable⟩ := hres i hi
        rw [hfind, Option.map_some']
        have : getStepDepth S f sti = d - 1 := hstable f (by omega)
        rw [this]
        congr 1
        omega
      rw [filterMap_all_const d prevIds _ hall,
        foldr_max_replicate prevIds.length d (by cases prevIds; exact absurd rfl hne; simp)]

/-- Sizes of the clause lists of each phase. -/
def phaseSizes (phs : List (List Char)) : List Nat :=
  phs.map (fun ph => (splitByOperator ph ANDpat).length)

/-- The depths the compiled steps receive, phase block by phase block:
each block is constant; the next block is one deeper, except that an empty
block resets the chain to 0 (this never happens for phases produced by
`splitByOperator`, but the lemmas do not need to rule it out). -/
def depthList : Nat → List Nat → List Nat
  | _, [] => []
  | d, sz :: rest =>
    List.replicate sz d ++ depthList (if sz = 0 then 0 else d + 1) rest

/-- Master lemma about the depth of compiled steps.  For a plan whose
steps include the output of `parsePhases` (at the top call they are equal)
and whose ids are distinct: (a) every produced step has a stable depth,
reached at fuel `d + #produced`; (b) with that much fuel the depths are
exactly `depthList`; (c) with that much fuel every produced step satisfies
the `depth = 1 + max(depth of resolved dependencies)` recurrence. -/
theorem parsePhases_depth (sup : IdSupply) (dflt : Option String)
    (S : List OrchestrationStep) (hnd : (S.map (fun s => s.id)).Nodup) :
    ∀ phs n prevIds d,
      (∀ st ∈ parsePhases sup dflt n prevIds phs, st ∈ S) →
      PrevOk S prevIds d →
      (∀ st ∈ parsePhases sup dflt n prevIds phs,
        ∃ dv, dv ≤ d + (parsePhases sup dflt n prevIds phs).length ∧
          ∀ f, dv ≤ f → getStepDepth S f st = dv) ∧
      (∀ f, d + (parsePhases sup dflt n prevIds phs).length ≤ f →
        (parsePhases sup dflt n prevIds phs).map (getStepDepth S f) =
          depthList d (phaseSizes phs)) ∧
      (∀ f, d + (parsePhases sup dflt n prevIds phs).length ≤ f →
        ∀ st ∈ parsePhases sup dflt n prevIds phs,
          getStepDepth S f st =
            if st.dependencies = [] then 0
            else 1 + ((st.dependencies.filterMap
                (fun i => S.find? (fun s => s.id == i))).map
                (getStepDepth S f)).foldr Nat.max 0) := by
  intro phs
  induction phs with
  | nil =>
    intro n prevIds d _ _
    refine ⟨?_, ?_, ?_⟩
    · intro st hst; simp [parsePhases] at hst
    · intro f _; rfl
    · intro f _ st hst; simp [parsePhases] at hst
  | cons ph rest ih =>
    intro n prevIds d hmem hPrev
    set cls := splitByOperator ph ANDpat with hcls
    set blk := parseClauses sup prevIds n dflt cls with hblk
    set restRes := parsePhases sup dflt (n + cls.length)
      (blk.map (fun s => s.id)) rest with hrest
    have hsplit : parsePhases sup dflt n prevIds (ph :: rest) = blk ++ restRes := by
      rw [parsePhases]
    have hblklen : blk.length = cls.length := parseClauses_length sup prevIds cls n dflt
    have hblkdeps : ∀ st ∈ blk, st.dependencies = prevIds := fun st hst =>
      parseClauses_deps sup prevIds cls n dflt st hst
    have hsubB : ∀ st ∈ blk, st ∈ S := fun st hst =>
      hmem st (by rw [hsplit]; exact List.mem_append_left _ hst)
    have hsubR : ∀ st ∈ restRes, st ∈ S := fun st hst =>
      hmem st (by rw [hsplit]; exact List.mem_append_right _ hst)
    have hblkdepth : ∀ st ∈ blk, ∀ f, d ≤ f → getStepDepth S f st = d :=
      fun st hst => step_depth_of_prev S prevIds d hPrev st (hblkdeps st hst)
    have hPrev' : PrevOk S (blk.map (fun s => s.id)) (if cls.length = 0 then 0 else d + 1) := by
      by_cases hsz : cls.length = 0
      · have : blk = [] := List.length_eq_zero.1 (by rw [hblklen, hsz])
        rw [this, hsz]
        exact Or.inl ⟨rfl, rfl⟩
      · have hbne : blk ≠ [] := by
          intro hb
          rw [hb] at hblklen
          exact hsz hblklen.symm
        rw [if_neg hsz]
        refine Or.inr ⟨by simpa using hbne, Nat.succ_pos d, ?_⟩
        intro i hi
        obtain ⟨st, hst, rfl⟩ := List.mem_map.1 hi
        exact ⟨st, find_of_nodup S hnd st (hsubB st hst), fun f hf =>
          hblkdepth st hst f (by omega)⟩
    obtain ⟨IH1, IH2, IH3⟩ := ih (n + cls.length) (blk.map (fun s => s.id))
      (if cls.length = 0 then 0 else d + 1) hsubR hPrev'
    rw [← hrest] at IH1 IH2 IH3
    have hdle : (if cls.length = 0 then 0 else d + 1) + restRes.length ≤
        d + (blk ++ restRes).length := by
      by_cases hsz : cls.length = 0 <;>
        simp [hsz, List.length_append, hblklen] <;> omega
    refine ⟨?_, ?_, ?_⟩
    · -- (a) stability
      rw [hsplit]
      intro st hst
      rcases List.mem_append.1 hst with hb | hr
      · exact ⟨d, Nat.le_add_right _ _, hblkdepth st hb⟩
      · obtain ⟨dv, hdv, hstab⟩ := IH1 st hr
        exact ⟨dv, by omega, hstab⟩
    · -- (b) depth values
      intro f hf
      rw [hsplit] at hf ⊢
      rw [List.map_append]
      have hb : blk.map (getStepDepth S f) = List.replicate cls.length d := by
        rw [map_const_of d blk _ (fun st hst => hblkdepth st hst f
          (by simp [List.length_append] at hf; omega)), hblklen]
      have hr : restRes.map (getStepDepth S f) =
          depthList (if cls.length = 0 then 0 else d + 1) (phaseSizes rest) :=
        IH2 f (by omega)
      rw [hb, hr]
      rfl
    · -- (c) recurrence
      intro f hf st hst
      rw [hsplit] at hf hst
      rcases List.mem_append.1 hst with hb | hr
      · have hdep := hblkdeps st hb
        have hfd : d ≤ f := by simp [List.length_append] at hf; omega
        rcases hPrev with ⟨hids, hd⟩ | ⟨hne, hdpos, hres⟩
        · rw [hblkdepth st hb f hfd, hdep, hids, if_pos rfl, hd]
        · rw [hblkdepth st hb f hfd, hdep, if_neg hne]
          have hmap : (prevIds.filterMap
              (fun i => S.find? (fun s => s.id == i))).map (getStepDepth S f) =
              List.replicate prevIds.length (d - 1) := by
            refine filterMap_map_const (d - 1) prevIds _ _ ?_
            intro i hi
            obtain ⟨sti, hfind, hstable⟩ := hres i hi
            exact ⟨sti, hfind, hstable f (by omega)⟩
          rw [hmap, foldr_max_replicate prevIds.length (d - 1)
            (by cases prevIds; exact absurd rfl hne; simp)]
          omega
      · exact IH3 f (by omega) st hr

/-! ### Inversion of a successful compile -/

/-- The duration formatting rule as the spec states it (§4.6):
`parallel_batches * 2000` ms rendered as seconds under 60000 ms (at least
`1s`), else as minutes (at least `1m`). -/
def fmtDuration (ms : Nat) : String :=
  if ms < 60000 then toString (max (ms / 1000) 1) ++ "s"
  else toString (max (ms / 60000) 1) ++ "m"

theorem compile_ok (sup : IdSupply) (text : String) (dflt : Option String)
    (plan : OrchestrationPlan) (h : compile sup text dflt = Except.ok plan) :
    plan = { id := sup.planId,
             description := ⟨text.data.take 100⟩,
             steps := parsePhases sup dflt 0 [] (splitByOperator text.data THENpat),
             created_at := sup.createdAt,
             status := PlanStatus.Pending,
             text := some text,
             metadata :=
               { total_steps :=
                   (parsePhases sup dflt 0 [] (splitByOperator text.data THENpat)).length,
                 parallel_batches :=
                   calculateBatches
                     (parsePhases sup dflt 0 [] (splitByOperator text.data THENpat)),
                 estimated_duration :=
                   some (fmtDuration (calculateBatches
                     (parsePhases sup dflt 0 [] (splitByOperator text.data THENpat)) * 2000)),
                 original_text := some text } } := by
  rw [compile] at h
  split at h
  · exact absurd h (by simp)
  · split at h
    · exact absurd h (by simp)
    · split at h
      · exact absurd h (by simp)
      · injection h with h
        exact h.symm

/-! ### C2: the validator is the only failure path -/

/-- The three validation rules of `parse` (lines 92-104), in the claim's
phrasing: trimmed text empty, trimmed text starting with a bare operator,
raw text containing a doubled operator. -/
def invalidCheck (text : String) : Bool :=
  decide (trimList text.data = []) ||
  (("THEN ".toList).isPrefixOf (trimList text.data) ||
   ("AND ".toList).isPrefixOf (trimList text.data) ||
   ("IF ".toList).isPrefixOf (trimList text.data)) ||
  (containsSub (" THEN THEN ".toList) text.data ||
   containsSub (" AND AND ".toList) text.data)

theorem compile_isOk_eq (sup : IdSupply) (text : String) (dflt : Option String) :
    (compile sup text dflt).isOk = !(invalidCheck text) := by
  rw [compile, invalidCheck]
  by_cases hA : trimList text.data = []
  · rw [if_pos hA, hA]
    rfl
  · rw [if_neg hA]
    have hA' : decide (trimList text.data = []) = false := decide_eq_false hA
    by_cases hB : (("THEN ".toList).isPrefixOf (trimList text.data) ||
        ("AND ".toList).isPrefixOf (trimList text.data) ||
        ("IF ".toList).isPrefixOf (trimList text.data)) = true
    · rw [if_pos hB, hA', hB]
      rfl
    · rw [if_neg hB]
      have hB' : (("THEN ".toList).isPrefixOf (trimList text.data) ||
          ("AND ".toList).isPrefixOf (trimList text.data) ||
          ("IF ".toList).isPrefixOf (trimList text.data)) = false := by
        rwa [Bool.not_eq_true] at hB
      by_cases hC : (containsSub (" THEN THEN ".toList) text.data ||
          containsSub (" AND AND ".toList) text.data) = true
      · rw [if_pos hC, hA', hB', hC]
        rfl
      · have hC' : (containsSub (" THEN THEN ".toList) text.data ||
            containsSub (" AND AND ".toList) text.data) = false := by
          rwa [Bool.not_eq_true] at hC
        rw [if_neg hC, hA', hB', hC']
        rfl

/-- C2: `compile` fails if and only if the trimmed text is empty, or the
trimmed text starts with `"THEN "`, `"AND "` or `"IF "`, or the raw text
contains `" THEN THEN "` or `" AND AND "`; every other input returns a
plan — the parsing stage itself has no failure path, and the `Except`
result carries either an error or a whole plan, never both. -/
theorem claim_C2_error_iff (sup : IdSupply) (text : String) (dflt : Option String) :
    (compile sup text dflt).isOk = !(invalidCheck text) :=
  compile_isOk_eq sup text dflt

/-! ### C10: a validated input can still compile to zero steps -/

/-- C10: `compile (" THEN ")` passes validation (its trimmed text is
`"THEN"`, which no rule matches) and yields an empty plan: no steps,
`total_steps = 0`, `parallel_batches = 1` and duration `"2s"`, because
`split_by_operator` drops empty pieces and `calculate_batches` returns
`0 + 1` on an empty step list. -/
theorem claim_C10_empty_plan :
    (compile natSupply (" THEN ") none).map (fun p => (p.steps, p.metadata)) =
      Except.ok ([],
        { total_steps := 0, parallel_batches := 1,
          estimated_duration := some ("2s"), original_text := some (" THEN ") }) := rfl

/-! ### C6: the duration estimate -/

theorem natSupply_inj : Function.Injective natSupply.stepId := by
  intro a b h
  have hl := congrArg (fun s : String => s.data.length) h
  simp [natSupply] at hl
  omega

theorem altSupply_inj : Function.Injective altSupply.stepId := by
  intro a b h
  have hl := congrArg (fun s : String => s.data.length) h
  simp [altSupply] at hl
  omega

/-- C6: every compiled plan's `estimated_duration` is
`parallel_batches * 2000` ms formatted by the seconds/minutes rule, and
the worked example `"a: x THEN b: y THEN c: z"` yields three steps with
worker ids `a`, `b`, `c`, three parallel batches and duration `"6s"`. -/
theorem claim_C6_duration :
    (∀ sup text dflt plan, compile sup text dflt = Except.ok plan →
      plan.metadata.estimated_duration =
        some (fmtDuration (plan.metadata.parallel_batches * 2000))) ∧
    ((getPlan (compile natSupply ("a: x THEN b: y THEN c: z") none)).steps.map
        (fun s => s.goblin_id) = ["a", "b", "c"] ∧
      (getPlan (compile natSupply ("a: x THEN b: y THEN c: z") none)).steps.length = 3 ∧
      (getPlan (compile natSupply ("a: x THEN b: y THEN c: z") none)).metadata.parallel_batches
        = 3 ∧
      (getPlan (compile natSupply ("a: x THEN b: y THEN c: z") none)).metadata.estimated_duration
        = some ("6s")) := by
  constructor
  · intro sup text dflt plan h
    rw [compile_ok sup text dflt plan h]
  · exact ⟨by decide, by decide, by decide, by decide⟩

theorem claim_C6_duration_witness :
    (getPlan (compile natSupply ("t: u") none)).metadata.estimated_duration =
      some (fmtDuration
        ((getPlan (compile natSupply ("t: u") none)).metadata.parallel_batches * 2000)) :=
  claim_C6_duration.1 natSupply ("t: u") none _ rfl

/-! ### C9: the depth recursion is total on compiled plans -/

/-- Fuel-independence of `getStepDepth` from `steps.length` on: the
embedded counterpart of "the recursion of `get_step_depth` terminates and
defines a total function" for the unbounded Rust recursion. -/
def DepthTotal (steps : List OrchestrationStep) : Prop :=
  ∀ st ∈ steps, ∃ dv, ∀ f, steps.length ≤ f → getStepDepth steps f st = dv

/-- C9: on every plan produced by `compile` (with within-plan-unique step
ids, as the id generator guarantees), every step's depth is a well-defined
total function: the fuel-indexed computation of `getStepDepth` has a single
stable value for all fuel from `steps.length` on, because dependencies only
ever point to steps of the strictly earlier phase. -/
theorem claim_C9_depth_total (sup : IdSupply) (text : String) (dflt : Option String)
    (plan : OrchestrationPlan) (hinj : Function.Injective sup.stepId)
    (h : compile sup text dflt = Except.ok plan) : DepthTotal plan.steps := by
  have hnd := parsePhases_nodup sup dflt hinj (splitByOperator text.data THENpat) 0 []
  obtain ⟨H1, -, -⟩ := parsePhases_depth sup dflt
    (parsePhases sup dflt 0 [] (splitByOperator text.data THENpat)) hnd
    (splitByOperator text.data THENpat) 0 [] 0 (fun _ hst => hst) (Or.inl ⟨rfl, rfl⟩)
  rw [compile_ok sup text dflt plan h]
  intro st hst
  obtain ⟨dv, hdvle, hstab⟩ := H1 st hst
  refine ⟨dv, fun f hf => hstab f ?_⟩
  have hf2 : (parsePhases sup dflt 0 [] (splitByOperator text.data THENpat)).length ≤ f := hf
  omega

theorem claim_C9_depth_total_witness :
    DepthTotal (getPlan (compile natSupply ("a THEN b") none)).steps :=
  claim_C9_depth_total natSupply ("a THEN b") none
    (getPlan (compile natSupply ("a THEN b") none)) natSupply_inj rfl

/-! ### C5: the depth recurrence and the batch count -/

/-- The claim's description of the analyzer: depth 0 without dependencies,
else one more than the maximal depth over the (looked-up) dependencies;
`parallel_batches` is the maximal depth plus one (1 for no steps). -/
def DepthSpec (plan : OrchestrationPlan) : Prop :=
  (∀ st ∈ plan.steps,
    getStepDepth plan.steps plan.steps.length st =
      if st.dependencies = [] then 0
      else 1 + ((st.dependencies.filterMap
          (fun i => plan.steps.find? (fun s => s.id == i))).map
          (getStepDepth plan.steps plan.steps.length)).foldr Nat.max 0) ∧
  plan.metadata.parallel_batches =
    (plan.steps.map (getStepDepth plan.steps plan.steps.length)).foldr Nat.max 0 + 1

/-- C5: in every compiled plan (with within-plan-unique step ids), the
depth used by the batch analyzer satisfies `depth = 0` for steps without
dependencies and `depth = 1 + max(depth of the step each dependency id
resolves to)` otherwise, and `metadata.parallel_batches` is the maximal
step depth plus one, which is 1 when there are no steps. -/
theorem claim_C5_depth_recurrence (sup : IdSupply) (text : String)
    (dflt : Option String) (plan : OrchestrationPlan)
    (hinj : Function.Injective sup.stepId)
    (h : compile sup text dflt = Except.ok plan) : DepthSpec plan := by
  have hnd := parsePhases_nodup sup dflt hinj (splitByOperator text.data THENpat) 0 []
  obtain ⟨-, -, H3⟩ := parsePhases_depth sup dflt
    (parsePhases sup dflt 0 [] (splitByOperator text.data THENpat)) hnd
    (splitByOperator text.data THENpat) 0 [] 0 (fun _ hst => hst) (Or.inl ⟨rfl, rfl⟩)
  rw [compile_ok sup text dflt plan h]
  constructor
  · intro st hst
    exact H3 (parsePhases sup dflt 0 [] (splitByOperator text.data THENpat)).length
      (by omega) st hst
  · rfl

theorem claim_C5_depth_recurrence_witness :
    DepthSpec (getPlan (compile natSupply ("a AND b THEN c") none)) :=
  claim_C5_depth_recurrence natSupply ("a AND b THEN c") none
    (getPlan (compile natSupply ("a AND b THEN c") none)) natSupply_inj rfl

/-! ### C1: the dependency invariant -/

/-- Phase blocks with the dependency discipline of the binder: every step
of a block depends on exactly the ids of the previous block (the first
block on the initial, empty, id list). -/
def BlocksDeps : List String → List (List OrchestrationStep) → Prop
  | _, [] => True
  | prev, blk :: rest =>
    (∀ st ∈ blk, st.dependencies = prev) ∧ BlocksDeps (blk.map (fun s => s.id)) rest

theorem blocksDeps_phaseBlocks (sup : IdSupply) (dflt : Option String) :
    ∀ phs n prev, BlocksDeps prev (phaseBlocks sup dflt n prev phs) := by
  intro phs
  induction phs with
  | nil => intro n prev; trivial
  | cons ph rest ih =>
    intro n prev
    exact ⟨fun st hst => parseClauses_deps sup prev _ n dflt st hst, ih _ _⟩

theorem parsePhases_dep_counters (sup : IdSupply) (dflt : Option String) :
    ∀ phs n prevIds,
      (∀ x ∈ prevIds, ∃ j, j < n ∧ x = sup.stepId j) →
      ∀ i st, (parsePhases sup dflt n prevIds phs).get? i = some st →
        ∀ depId ∈ st.dependencies, ∃ j, j < n + i ∧ depId = sup.stepId j := by
  intro phs
  induction phs with
  | nil =>
    intro n prevIds _ i st hget
    rw [parsePhases] at hget
    simp at hget
  | cons ph rest ih =>
    intro n prevIds hprev i st hget depId hdep
    rw [parsePhases] at hget
    by_cases hi : i < (parseClauses sup prevIds n dflt (splitByOperator ph ANDpat)).length
    · rw [List.get?_append hi] at hget
      have hmem : st ∈ parseClauses sup prevIds n dflt (splitByOperator ph ANDpat) :=
        List.get?_mem hget
      have hdeps := parseClauses_deps sup prevIds _ n dflt st hmem
      rw [hdeps] at hdep
      obtain ⟨j, hj, hjx⟩ := hprev depId hdep
      exact ⟨j, by omega, hjx⟩
    · push_neg at hi
      rw [List.get?_append_right hi] at hget
      have hlen : (parseClauses sup prevIds n dflt (splitByOperator ph ANDpat)).length =
          (splitByOperator ph ANDpat).length := parseClauses_length sup prevIds _ n dflt
      have hprev' : ∀ x ∈ (parseClauses sup prevIds n dflt
          (splitByOperator ph ANDpat)).map (fun s => s.id),
          ∃ j, j < n + (splitByOperator ph ANDpat).length ∧ x = sup.stepId j := by
        intro x hx
        rw [parseClauses_ids] at hx
        obtain ⟨j0, hj0, rfl⟩ := List.mem_map.1 hx
        exact ⟨n + j0, by have := List.mem_range.1 hj0; omega, rfl⟩
      obtain ⟨j, hj, hjx⟩ := ih (n + (splitByOperator ph ANDpat).length) _ hprev'
        (i - (parseClauses sup prevIds n dflt (splitByOperator ph ANDpat)).length)
        st hget depId hdep
      refine ⟨j, ?_, hjx⟩
      rw [hlen] at hi
      omega

/-- The dependency invariant of a compiled plan: the steps decompose into
the phase blocks, each block depends on exactly the ids of the previous
block (nothing for the first block), and every referenced id belongs to a
strictly earlier step of the plan. -/
def DepInvariant (sup : IdSupply) (text : String) (dflt : Option String)
    (plan : OrchestrationPlan) : Prop :=
  plan.steps = (phaseBlocks sup dflt 0 [] (splitByOperator text.data THENpat)).flatten ∧
  BlocksDeps [] (phaseBlocks sup dflt 0 [] (splitByOperator text.data THENpat)) ∧
  ∀ i st, plan.steps.get? i = some st → ∀ depId ∈ st.dependencies,
    ∃ j st2, j < i ∧ plan.steps.get? j = some st2 ∧ st2.id = depId

/-- C1: every plan returned by a successful compile satisfies the
dependency invariant: steps split into phase blocks, first-phase steps
have no dependencies, every phase-N step lists exactly the ids of all
phase-(N-1) steps, and every referenced id names a strictly earlier step
of the plan (referential integrity). -/
theorem claim_C1_dependency_invariant (sup : IdSupply) (text : String)
    (dflt : Option String) (plan : OrchestrationPlan)
    (h : compile sup text dflt = Except.ok plan) :
    DepInvariant sup text dflt plan := by
  have hplan := compile_ok sup text dflt plan h
  refine ⟨?_, ?_, ?_⟩
  · rw [hplan]
    exact parsePhases_eq_join sup dflt _ 0 []
  · exact blocksDeps_phaseBlocks sup dflt _ 0 []
  · intro i st hget depId hdep
    rw [hplan] at hget
    obtain ⟨j, hj, hjx⟩ := parsePhases_dep_counters sup dflt
      (splitByOperator text.data THENpat) 0 [] (by intro x hx; simp at hx)
      i st hget depId hdep
    have hilen : i < (parsePhases sup dflt 0 [] (splitByOperator text.data THENpat)).length := by
      by_contra hge
      push_neg at hge
      rw [List.get?_eq_none.2 hge] at hget
      exact Option.noConfusion hget
    have hjlen : j < (parsePhases sup dflt 0 [] (splitByOperator text.data THENpat)).length := by
      omega
    obtain ⟨st2, hst2⟩ : ∃ st2,
        (parsePhases sup dflt 0 [] (splitByOperator text.data THENpat)).get? j = some st2 :=
      ⟨_, List.get?_eq_get hjlen⟩
    refine ⟨j, st2, by omega, by rw [hplan]; exact hst2, ?_⟩
    have h1 : ((parsePhases sup dflt 0 [] (splitByOperator text.data THENpat)).map
        (fun s => s.id)).get? j = some st2.id := by
      rw [List.get?_map, hst2]
      rfl
    rw [parsePhases_ids, List.get?_map, List.get?_range hjlen] at h1
    have h2 : sup.stepId (0 + j) = st2.id := Option.some.inj h1
    rw [hjx]
    rw [← h2]
    exact congrArg sup.stepId (by omega)

theorem claim_C1_dependency_invariant_witness :
    DepInvariant natSupply ("a AND b THEN c AND d") (some ("w"))
      (getPlan (compile natSupply ("a AND b THEN c AND d") (some ("w")))) :=
  claim_C1_dependency_invariant natSupply ("a AND b THEN c AND d") (some ("w"))
    (getPlan (compile natSupply ("a AND b THEN c AND d") (some ("w")))) rfl

/-! ### C7: clause order within a phase does not change depths -/

/-- The phase/clause decomposition of an input text, as produced by the
splitter pipeline. -/
def clausesOf (text : String) : List (List (List Char)) :=
  (splitByOperator text.data THENpat).map (fun ph => splitByOperator ph ANDpat)

theorem forall₂_perm_map_length {la lb : List (List (List Char))}
    (h : List.Forall₂ (fun a b => a.Perm b) la lb) :
    la.map List.length = lb.map List.length := by
  induction h with
  | nil => rfl
  | cons hab _ ih => simp [hab.length_eq, ih]

/-- C7: if two valid inputs have the same phase structure up to permuting
the clauses inside each phase, the compiled plans have the same per-step
depth sequence and the same `parallel_batches`. -/
theorem claim_C7_perm_depths (s1 s2 : IdSupply) (t1 t2 : String)
    (dflt : Option String) (p1 p2 : OrchestrationPlan)
    (h1 : Function.Injective s1.stepId) (h2 : Function.Injective s2.stepId)
    (hperm : List.Forall₂ (fun a b => a.Perm b) (clausesOf t1) (clausesOf t2))
    (e1 : compile s1 t1 dflt = Except.ok p1) (e2 : compile s2 t2 dflt = Except.ok p2) :
    p1.steps.map (fun st => getStepDepth p1.steps p1.steps.length st) =
      p2.steps.map (fun st => getStepDepth p2.steps p2.steps.length st) ∧
    p1.metadata.parallel_batches = p2.metadata.parallel_batches := by
  have hsz : phaseSizes (splitByOperator t1.data THENpat) =
      phaseSizes (splitByOperator t2.data THENpat) := by
    have := forall₂_perm_map_length hperm
    simpa [clausesOf, phaseSizes, List.map_map, Function.comp] using this
  have hnd1 := parsePhases_nodup s1 dflt h1 (splitByOperator t1.data THENpat) 0 []
  have hnd2 := parsePhases_nodup s2 dflt h2 (splitByOperator t2.data THENpat) 0 []
  obtain ⟨-, H2a, -⟩ := parsePhases_depth s1 dflt
    (parsePhases s1 dflt 0 [] (splitByOperator t1.data THENpat)) hnd1
    (splitByOperator t1.data THENpat) 0 [] 0 (fun _ hst => hst) (Or.inl ⟨rfl, rfl⟩)
  obtain ⟨-, H2b, -⟩ := parsePhases_depth s2 dflt
    (parsePhases s2 dflt 0 [] (splitByOperator t2.data THENpat)) hnd2
    (splitByOperator t2.data THENpat) 0 [] 0 (fun _ hst => hst) (Or.inl ⟨rfl, rfl⟩)
  have hd1 := H2a (parsePhases s1 dflt 0 [] (splitByOperator t1.data THENpat)).length
    (by omega)
  have hd2 := H2b (parsePhases s2 dflt 0 [] (splitByOperator t2.data THENpat)).length
    (by omega)
  have hmaps : p1.steps.map (fun st => getStepDepth p1.steps p1.steps.length st) =
      p2.steps.map (fun st => getStepDepth p2.steps p2.steps.length st) := by
    rw [compile_ok s1 t1 dflt p1 e1, compile_ok s2 t2 dflt p2 e2]
    rw [hd1, hd2, hsz]
  refine ⟨hmaps, ?_⟩
  rw [compile_ok s1 t1 dflt p1 e1, compile_ok s2 t2 dflt p2 e2]
  show calculateBatches _ = calculateBatches _
  rw [calculateBatches, calculateBatches]
  rw [compile_ok s1 t1 dflt p1 e1, compile_ok s2 t2 dflt p2 e2] at hmaps
  rw [hmaps]

theorem claim_C7_perm_depths_witness :
    (getPlan (compile natSupply ("a AND b THEN c") none)).steps.map
        (fun st => getStepDepth (getPlan (compile natSupply ("a AND b THEN c") none)).steps
          (getPlan (compile natSupply ("a AND b THEN c") none)).steps.length st) =
      (getPlan (compile altSupply ("b AND a THEN c") none)).steps.map
        (fun st => getStepDepth (getPlan (compile altSupply ("b AND a THEN c") none)).steps
          (getPlan (compile altSupply ("b AND a THEN c") none)).steps.length st) ∧
    (getPlan (compile natSupply ("a AND b THEN c") none)).metadata.parallel_batches =
      (getPlan (compile altSupply ("b AND a THEN c") none)).metadata.parallel_batches :=
  claim_C7_perm_depths natSupply altSupply ("a AND b THEN c") ("b AND a THEN c") none
    (getPlan (compile natSupply ("a AND b THEN c") none))
    (getPlan (compile altSupply ("b AND a THEN c") none))
    natSupply_inj altSupply_inj
    (by
      refine List.Forall₂.cons ?_ (List.Forall₂.cons ?_ List.Forall₂.nil)
      · exact List.Perm.swap _ _ _
      · exact List.Perm.refl _)
    rfl rfl

/-! ### C8: determinism modulo generated ids and timestamps -/

/-- Positional similarity of two steps from two runs: all fields agree
except the generated id, and the dependency lists reference the same step
positions (the same creation counters `ns`) through each run's own id
supply. -/
def StepSim (s1 s2 : IdSupply) (a b : OrchestrationStep) : Prop :=
  a.task = b.task ∧ a.goblin_id = b.goblin_id ∧ a.condition = b.condition ∧
  a.status = b.status ∧ a.result = b.result ∧
  ∃ ns : List Nat, a.dependencies = ns.map s1.stepId ∧ b.dependencies = ns.map s2.stepId

theorem parseTask_fields (i1 i2 : String) (dflt : Option String) (t : List Char) :
    (parseTask i1 dflt t).task = (parseTask i2 dflt t).task ∧
    (parseTask i1 dflt t).goblin_id = (parseTask i2 dflt t).goblin_id ∧
    (parseTask i1 dflt t).condition = (parseTask i2 dflt t).condition ∧
    (parseTask i1 dflt t).status = (parseTask i2 dflt t).status ∧
    (parseTask i1 dflt t).result = (parseTask i2 dflt t).result := by
  rw [parseTask, parseTask]
  rcases h : explicitSplit (condAndClean t).2 with _ | ⟨g, tk⟩ <;> simp [h]

theorem parseClauses_sim (s1 s2 : IdSupply) :
    ∀ (cls : List (List Char)) (n : Nat) (lastG : Option String) (ns : List Nat),
      List.Forall₂ (StepSim s1 s2)
        (parseClauses s1 (ns.map s1.stepId) n lastG cls)
        (parseClauses s2 (ns.map s2.stepId) n lastG cls) := by
  intro cls
  induction cls with
  | nil => intro n lastG ns; exact List.Forall₂.nil
  | cons t ts ih =>
    intro n lastG ns
    rw [parseClauses, parseClauses]
    refine List.Forall₂.cons ?_ (ih (n + 1) (updateLast lastG t) ns)
    obtain ⟨h1, h2, h3, h4, h5⟩ := parseTask_fields (s1.stepId n) (s2.stepId n) lastG t
    exact ⟨h1, h2, h3, h4, h5, ns, rfl, rfl⟩

theorem parsePhases_sim (s1 s2 : IdSupply) (dflt : Option String) :
    ∀ (phs : List (List Char)) (n : Nat) (ns : List Nat),
      List.Forall₂ (StepSim s1 s2)
        (parsePhases s1 dflt n (ns.map s1.stepId) phs)
        (parsePhases s2 dflt n (ns.map s2.stepId) phs) := by
  intro phs
  induction phs with
  | nil => intro n ns; exact List.Forall₂.nil
  | cons ph rest ih =>
    intro n ns
    rw [parsePhases, parsePhases]
    refine List.rel_append (parseClauses_sim s1 s2 _ n dflt ns) ?_
    have hids1 : (parseClauses s1 (ns.map s1.stepId) n dflt
        (splitByOperator ph ANDpat)).map (fun s => s.id) =
        ((List.range (splitByOperator ph ANDpat).length).map (fun j => n + j)).map
          s1.stepId := by
      rw [parseClauses_ids, List.map_map]
      rfl
    have hids2 : (parseClauses s2 (ns.map s2.stepId) n dflt
        (splitByOperator ph ANDpat)).map (fun s => s.id) =
        ((List.range (splitByOperator ph ANDpat).length).map (fun j => n + j)).map
          s2.stepId := by
      rw [parseClauses_ids, List.map_map]
      rfl
    rw [hids1, hids2]
    exact ih (n + (splitByOperator ph ANDpat).length) _

/-- Agreement of two compile runs over the same input: same
success/failure, and on success the plans agree on everything except the
plan id, the step ids and the creation timestamp; the dependency lists
reference the same step positions. -/
def CompileAgrees (s1 s2 : IdSupply) (text : String) (dflt : Option String) : Prop :=
  (compile s1 text dflt).isOk = (compile s2 text dflt).isOk ∧
  ∀ p1 p2, compile s1 text dflt = Except.ok p1 → compile s2 text dflt = Except.ok p2 →
    p1.description = p2.description ∧ p1.text = p2.text ∧ p1.status = p2.status ∧
    p1.metadata = p2.metadata ∧ List.Forall₂ (StepSim s1 s2) p1.steps p2.steps

/-- C8: compilation is deterministic modulo generated identifiers and
timestamps.  Two runs over the same text and default worker id agree on
success versus failure, and successful plans agree position by position on
task, worker id, condition, status, result and on which step positions
each dependency list references, as well as on description, text and the
whole metadata record; only plan id, step ids and `created_at` may
differ. -/
theorem claim_C8_deterministic (s1 s2 : IdSupply) (text : String)
    (dflt : Option String) (h1 : Function.Injective s1.stepId)
    (h2 : Function.Injective s2.stepId) : CompileAgrees s1 s2 text dflt := by
  constructor
  · rw [compile_isOk_eq s1 text dflt, compile_isOk_eq s2 text dflt]
  · intro p1 p2 e1 e2
    have hp1 := compile_ok s1 text dflt p1 e1
    have hp2 := compile_ok s2 text dflt p2 e2
    have hsim : List.Forall₂ (StepSim s1 s2)
        (parsePhases s1 dflt 0 [] (splitByOperator text.data THENpat))
        (parsePhases s2 dflt 0 [] (splitByOperator text.data THENpat)) :=
      parsePhases_sim s1 s2 dflt (splitByOperator text.data THENpat) 0 []
    have hnd1 := parsePhases_nodup s1 dflt h1 (splitByOperator text.data THENpat) 0 []
    have hnd2 := parsePhases_nodup s2 dflt h2 (splitByOperator text.data THENpat) 0 []
    obtain ⟨-, H2a, -⟩ := parsePhases_depth s1 dflt
      (parsePhases s1 dflt 0 [] (splitByOperator text.data THENpat)) hnd1
      (splitByOperator text.data THENpat) 0 [] 0 (fun _ hst => hst) (Or.inl ⟨rfl, rfl⟩)
    obtain ⟨-, H2b, -⟩ := parsePhases_depth s2 dflt
      (parsePhases s2 dflt 0 [] (splitByOperator text.data THENpat)) hnd2
      (splitByOperator text.data THENpat) 0 [] 0 (fun _ hst => hst) (Or.inl ⟨rfl, rfl⟩)
    have hlen : (parsePhases s1 dflt 0 [] (splitByOperator text.data THENpat)).length =
        (parsePhases s2 dflt 0 [] (splitByOperator text.data THENpat)).length :=
      hsim.length_eq
    have hbatch : calculateBatches
        (parsePhases s1 dflt 0 [] (splitByOperator text.data THENpat)) =
        calculateBatches (parsePhases s2 dflt 0 [] (splitByOperator text.data THENpat)) := by
      rw [calculateBatches, calculateBatches,
        H2a (parsePhases s1 dflt 0 [] (splitByOperator text.data THENpat)).length (by omega),
        H2b (parsePhases s2 dflt 0 [] (splitByOperator text.data THENpat)).length (by omega)]
    subst hp1
    subst hp2
    refine ⟨rfl, rfl, rfl, ?_, hsim⟩
    show PlanMetadata.mk _ _ _ _ = PlanMetadata.mk _ _ _ _
    rw [hlen, hbatch]

theorem claim_C8_deterministic_witness :
    CompileAgrees natSupply altSupply ("a: x AND y THEN b: z") (some ("w")) :=
  claim_C8_deterministic natSupply altSupply ("a: x AND y THEN b: z") (some ("w"))
    natSupply_inj altSupply_inj

/-! ### C3: declarative characterization of the regex matchers -/

theorem dropWhile_append_of_all (p : Char → Bool) :
    ∀ (w r : List Char), (∀ c ∈ w, p c = true) →
      (w ++ r).dropWhile p = r.dropWhile p := by
  intro w
  induction w with
  | nil => intro r _; rfl
  | cons c w' ih =>
    intro r h
    rw [List.cons_append, List.dropWhile_cons, h c (List.mem_cons_self c w')]
    simp only [if_true]
    exact ih r (fun x hx => h x (List.mem_cons_of_mem c hx))

theorem dropWhile_cons_of_false {p : Char → Bool} {c : Char} (l : List Char)
    (h : p c = false) : (c :: l).dropWhile p = c :: l := by
  rw [List.dropWhile_cons, h]
  simp

theorem dropWhile_head_false (p : Char → Bool) :
    ∀ (l : List Char) (c : Char) (t : List Char), l.dropWhile p = c :: t →
      p c = false := by
  intro l
  induction l with
  | nil => intro c t h; simp [List.dropWhile] at h
  | cons a l' ih =>
    intro c t h
    rw [List.dropWhile_cons] at h
    by_cases ha : p a = true
    · rw [ha] at h
      simp only [if_true] at h
      exact ih c t h
    · have ha' : p a = false := by
        cases hpa : p a
        · rfl
        · exact absurd hpa ha
      rw [ha'] at h
      simp only [Bool.false_eq_true, if_false] at h
      cases h
      exact ha'

theorem takeWhile_ne_nil_of_head {p : Char → Bool} {c : Char} (l : List Char)
    (h : p c = true) : (c :: l).takeWhile p ≠ [] := by
  rw [List.takeWhile_cons, h]
  simp

/-- Soundness of the lazy group search: a found match decomposes the input
into the (nonempty, newline-free) group and a remainder accepted by the
tail matcher. -/
theorem groupSearch_sound {α : Type} (tailm : List Char → Option α) :
    ∀ (l acc g : List Char) (a : α), groupSearch tailm acc l = some (g, a) →
      ∃ g2 rest, l = g2 ++ rest ∧ g = acc ++ g2 ∧ g2 ≠ [] ∧
        (∀ c ∈ g2, c ≠ '\n') ∧ tailm rest = some a := by
  intro l
  induction l with
  | nil => intro acc g a h; simp [groupSearch] at h
  | cons c cs ih =>
    intro acc g a h
    rw [groupSearch] at h
    by_cases hnl : c = '\n'
    · rw [if_pos hnl] at h
      exact absurd h (by simp)
    · rw [if_neg hnl] at h
      cases ht : tailm cs with
      | some a2 =>
        rw [ht] at h
        simp only [Option.some.injEq, Prod.mk.injEq] at h
        obtain ⟨hg, ha⟩ := h
        subst ha
        refine ⟨[c], cs, rfl, by rw [← hg], by simp, ?_, ht⟩
        intro x hx
        rw [List.mem_singleton] at hx
        subst hx
        exact hnl
      | none =>
        rw [ht] at h
        obtain ⟨g2, rest, hcs, hg, hne, hnl2, htl⟩ := ih (acc ++ [c]) g a h
        refine ⟨c :: g2, rest, by rw [hcs]; rfl, by rw [hg, List.append_assoc]; rfl,
          by simp, ?_, htl⟩
        intro x hx
        rcases List.mem_cons.1 hx with rfl | hx2
        · exact hnl
        · exact hnl2 x hx2

/-- Completeness of the lazy group search: if the input splits into a
usable group and an accepted remainder, the search succeeds. -/
theorem groupSearch_complete {α : Type} (tailm : List Char → Option α) :
    ∀ (l acc : List Char),
      (∃ g rest, l = g ++ rest ∧ g ≠ [] ∧ (∀ c ∈ g, c ≠ '\n') ∧ tailm rest ≠ none) →
      groupSearch tailm acc l ≠ none := by
  intro l
  induction l with
  | nil =>
    intro acc h
    obtain ⟨g, rest, hl, hne, -, -⟩ := h
    exact absurd ((List.append_eq_nil).1 hl.symm).1 hne
  | cons c cs ih =>
    intro acc h
    obtain ⟨g, rest, hl, hne, hnl, htl⟩ := h
    cases g with
    | nil => exact absurd rfl hne
    | cons gc g' =>
      rw [List.cons_append] at hl
      injection hl with hc hcs
      subst hc
      rw [groupSearch, if_neg (hnl c (List.mem_cons_self c g'))]
      cases ht : tailm cs with
      | some a2 => simp
      | none =>
        cases g' with
        | nil =>
          rw [List.nil_append] at hcs
          rw [← hcs] at htl
          exact absurd ht htl
        | cons g'' gs =>
          refine ih (acc ++ [c]) ⟨g'' :: gs, rest, hcs, by simp, ?_, htl⟩
          intro x hx
          exact hnl x (List.mem_cons_of_mem c hx)

theorem regexCap_sound {α : Type} (tailm : List Char → Option α) :
    ∀ (l g : List Char) (a : α), regexCap tailm l = some (g, a) →
      ∃ pre rest, l = pre ++ g ++ rest ∧ g ≠ [] ∧
        (∀ c ∈ g, c ≠ '\n') ∧ tailm rest = some a := by
  intro l
  induction l with
  | nil => intro g a h; simp [regexCap] at h
  | cons c cs ih =>
    intro g a h
    rw [regexCap] at h
    cases hg : groupSearch tailm [] (c :: cs) with
    | some r =>
      rw [hg] at h
      injection h with h
      subst h
      obtain ⟨g2, rest, hl, hgacc, hne, hnl, htl⟩ := groupSearch_sound tailm (c :: cs) [] g a hg
      rw [List.nil_append] at hgacc
      subst hgacc
      exact ⟨[], rest, by rw [List.nil_append]; exact hl, hne, hnl, htl⟩
    | none =>
      rw [hg] at h
      obtain ⟨pre, rest, hl, hne, hnl, htl⟩ := ih g a h
      exact ⟨c :: pre, rest, by rw [hl]; rfl, hne, hnl, htl⟩

theorem regexCap_complete {α : Type} (tailm : List Char → Option α) :
    ∀ l : List Char,
      (∃ pre g rest, l = pre ++ g ++ rest ∧ g ≠ [] ∧ (∀ c ∈ g, c ≠ '\n') ∧
        tailm rest ≠ none) →
      regexCap tailm l ≠ none := by
  intro l
  induction l with
  | nil =>
    intro h
    obtain ⟨pre, g, rest, hl, hne, -, -⟩ := h
    rw [List.append_assoc] at hl
    obtain ⟨-, h2⟩ := (List.append_eq_nil).1 hl.symm
    exact absurd ((List.append_eq_nil).1 h2).1 hne
  | cons c cs ih =>
    intro h
    obtain ⟨pre, g, rest, hl, hne, hnl, htl⟩ := h
    rw [regexCap]
    cases hg : groupSearch tailm [] (c :: cs) with
    | some r => simp
    | none =>
      cases pre with
      | nil =>
        rw [List.nil_append] at hl
        exact absurd hg (groupSearch_complete tailm (c :: cs) [] ⟨g, rest, hl, hne, hnl, htl⟩)
      | cons pc pre' =>
        rw [List.cons_append, List.cons_append] at hl
        injection hl with hc hcs
        exact ih ⟨pre', g, rest, hcs, hne, hnl, htl⟩

/-- The literal of the first regex, selected by its alternation. -/
def lit1 (b : Bool) : List Char :=
  if b then ("IF_SUCCESS").toList else ("IF_FAILURE").toList

/-- Declarative shape of a tail accepted by `matchTail1`: mandatory
whitespace, the literal, trailing whitespace to the end. -/
def Tail1Decomp (l : List Char) (b : Bool) : Prop :=
  ∃ w t, l = w ++ lit1 b ++ t ∧ w ≠ [] ∧
    (∀ c ∈ w, isWs c = true) ∧ (∀ c ∈ t, isWs c = true)

theorem dropWhile_eq_self_of_head {p : Char → Bool} :
    ∀ (l : List Char) (c : Char) (t : List Char), l = c :: t → p c = false →
      l.dropWhile p = l := by
  intro l c t hl hc
  subst hl
  exact dropWhile_cons_of_false t hc

theorem mt1_sound : ∀ (l : List Char) (b : Bool),
    matchTail1 l = some b → Tail1Decomp l b := by
  intro l b h
  cases l with
  | nil => simp [matchTail1] at h
  | cons c cs =>
    simp only [matchTail1] at h
    by_cases hws : isWs c = true
    swap
    · rw [if_neg hws] at h
      exact absurd h (by simp)
    rw [if_pos hws] at h
    by_cases h1 : (("IF_SUCCESS".toList).isPrefixOf ((c :: cs).dropWhile isWs) &&
        (((c :: cs).dropWhile isWs).drop 10).all isWs) = true
    · rw [if_pos h1] at h
      injection h with hb
      subst hb
      rw [Bool.and_eq_true] at h1
      obtain ⟨hpre, hall⟩ := h1
      obtain ⟨t, ht⟩ := List.isPrefixOf_iff_prefix.1 hpre
      have hdt : ((c :: cs).dropWhile isWs).drop 10 = t := by
        rw [← ht]
        exact List.drop_left' (by rfl)
      refine ⟨(c :: cs).takeWhile isWs, t, ?_, takeWhile_ne_nil_of_head cs hws, ?_, ?_⟩
      · conv_lhs => rw [← List.takeWhile_append_dropWhile isWs (c :: cs)]
        rw [← ht, lit1, if_pos rfl, List.append_assoc]
      · intro x hx
        exact List.mem_takeWhile_imp hx
      · intro x hx
        rw [← hdt] at hx
        exact (List.all_eq_true.1 hall) x hx
    · rw [if_neg h1] at h
      by_cases h2 : (("IF_FAILURE".toList).isPrefixOf ((c :: cs).dropWhile isWs) &&
          (((c :: cs).dropWhile isWs).drop 10).all isWs) = true
      swap
      · rw [if_neg h2] at h
        exact absurd h (by simp)
      rw [if_pos h2] at h
      injection h with hb
      subst hb
      rw [Bool.and_eq_true] at h2
      obtain ⟨hpre, hall⟩ := h2
      obtain ⟨t, ht⟩ := List.isPrefixOf_iff_prefix.1 hpre
      have hdt : ((c :: cs).dropWhile isWs).drop 10 = t := by
        rw [← ht]
        exact List.drop_left' (by rfl)
      refine ⟨(c :: cs).takeWhile isWs, t, ?_, takeWhile_ne_nil_of_head cs hws, ?_, ?_⟩
      · conv_lhs => rw [← List.takeWhile_append_dropWhile isWs (c :: cs)]
        rw [← ht, lit1, if_neg (by simp), List.append_assoc]
      · intro x hx
        exact List.mem_takeWhile_imp hx
      · intro x hx
        rw [← hdt] at hx
        exact (List.all_eq_true.1 hall) x hx

theorem mt1_complete : ∀ (l : List Char) (b : Bool),
    Tail1Decomp l b → matchTail1 l = some b := by
  intro l b hd
  obtain ⟨w, t, hl, hwne, hwall, htall⟩ := hd
  cases w with
  | nil => exact absurd rfl hwne
  | cons wc w' =>
    subst hl
    have hdrop : ((wc :: w' : List Char) ++ lit1 b ++ t).dropWhile isWs = lit1 b ++ t := by
      rw [List.append_assoc, dropWhile_append_of_all isWs (wc :: w') _ hwall]
      cases b
      · exact dropWhile_eq_self_of_head _ 'I' (("F_FAILURE").toList ++ t) rfl rfl
      · exact dropWhile_eq_self_of_head _ 'I' (("F_SUCCESS").toList ++ t) rfl rfl
    have hcons : ((wc :: w' : List Char) ++ lit1 b ++ t) =
        wc :: (w' ++ lit1 b ++ t) := by
      simp
    rw [hcons] at hdrop ⊢
    simp only [matchTail1]
    rw [if_pos (hwall wc (List.mem_cons_self wc w'))]
    rw [hdrop]
    cases b
    · have hA : ("IF_SUCCESS".toList).isPrefixOf (lit1 false ++ t) = false := rfl
      have hB : ("IF_FAILURE".toList).isPrefixOf (lit1 false ++ t) = true :=
        List.isPrefixOf_iff_prefix.2 (List.prefix_append _ _)
      rw [hA, hB]
      have hdt : ((lit1 false ++ t).drop 10).all isWs = true := by
        rw [List.drop_left' (show (lit1 false).length = 10 from rfl)]
        exact List.all_eq_true.2 htall
      rw [hdt]
      rfl
    · have hB : ("IF_SUCCESS".toList).isPrefixOf (lit1 true ++ t) = true :=
        List.isPrefixOf_iff_prefix.2 (List.prefix_append _ _)
      rw [hB]
      have hdt : ((lit1 true ++ t).drop 10).all isWs = true := by
        rw [List.drop_left' (show (lit1 true).length = 10 from rfl)]
        exact List.all_eq_true.2 htall
      rw [hdt]
      rfl

/-- The four natural-language keywords with their truth values, in the
alternation order of the regex. -/
def kwList : List (List Char × Bool) :=
  [(("success").toList, true), (("failure").toList, false),
   (("passing").toList, true), (("failing").toList, false)]

/-- Declarative shape of a tail accepted by `matchTail3`: whitespace, the
literal `IF`, whitespace, a keyword — and then anything at all (`t` is
unconstrained, since the regex has no end anchor). -/
def Tail3Decomp (l : List Char) (b : Bool) : Prop :=
  ∃ w1 w2 kw t, (kw, b) ∈ kwList ∧ l = w1 ++ ("IF").toList ++ w2 ++ kw ++ t ∧
    w1 ≠ [] ∧ (∀ c ∈ w1, isWs c = true) ∧ w2 ≠ [] ∧ (∀ c ∈ w2, isWs c = true)

theorem mt3_sound : ∀ (l : List Char) (b : Bool),
    matchTail3 l = some b → Tail3Decomp l b := by
  intro l b h
  cases l with
  | nil => simp [matchTail3] at h
  | cons c cs =>
    simp only [matchTail3] at h
    by_cases hws : isWs c = true
    swap
    · rw [if_neg hws] at h
      exact absurd h (by simp)
    rw [if_pos hws] at h
    by_cases hp : ("IF".toList).isPrefixOf ((c :: cs).dropWhile isWs) = true
    swap
    · rw [Bool.not_eq_true] at hp
      rw [hp] at h
      exact absurd h (by simp)
    rw [hp] at h
    simp only [if_true] at h
    obtain ⟨rest2, hIF⟩ := List.isPrefixOf_iff_prefix.1 hp
    have hd2 : ((c :: cs).dropWhile isWs).drop 2 = rest2 := by
      rw [← hIF]
      exact List.drop_left' (by rfl)
    rw [hd2] at h
    cases rest2 with
    | nil => exact absurd h (by simp)
    | cons c1 cs1 =>
      simp only [] at h
      by_cases hws1 : isWs c1 = true
      swap
      · rw [if_neg hws1] at h
        exact absurd h (by simp)
      rw [if_pos hws1] at h
      have hbody : ∀ kw t2, (c1 :: cs1).dropWhile isWs = kw ++ t2 →
          ∀ b2, (kw, b2) ∈ kwList → Tail3Decomp (c :: cs) b2 := by
        intro kw t2 hkw b2 hmem
        refine ⟨(c :: cs).takeWhile isWs, (c1 :: cs1).takeWhile isWs, kw, t2, hmem,
          ?_, takeWhile_ne_nil_of_head cs hws, ?_, takeWhile_ne_nil_of_head cs1 hws1, ?_⟩
        · conv_lhs => rw [← List.takeWhile_append_dropWhile isWs (c :: cs)]
          rw [← hIF]
          conv_lhs =>
            rw [show (c1 :: cs1 : List Char) =
                (c1 :: cs1).takeWhile isWs ++ (c1 :: cs1).dropWhile isWs from
                (List.takeWhile_append_dropWhile _ _).symm,
              hkw]
          simp [List.append_assoc]
        · intro x hx
          exact List.mem_takeWhile_imp hx
        · intro x hx
          exact List.mem_takeWhile_imp hx
      by_cases k1 : ("success".toList).isPrefixOf ((c1 :: cs1).dropWhile isWs) = true
      · rw [k1] at h
        simp only [if_true] at h
        injection h with hb
        subst hb
        obtain ⟨t2, ht2⟩ := List.isPrefixOf_iff_prefix.1 k1
        exact hbody _ t2 ht2.symm true (by simp [kwList])
      · rw [Bool.not_eq_true] at k1
        rw [k1] at h
        simp only [Bool.false_eq_true, if_false] at h
        by_cases k2 : ("failure".toList).isPrefixOf ((c1 :: cs1).dropWhile isWs) = true
        · rw [k2] at h
          simp only [if_true] at h
          injection h with hb
          subst hb
          obtain ⟨t2, ht2⟩ := List.isPrefixOf_iff_prefix.1 k2
          exact hbody _ t2 ht2.symm false (by simp [kwList])
        · rw [Bool.not_eq_true] at k2
          rw [k2] at h
          simp only [Bool.false_eq_true, if_false] at h
          by_cases k3 : ("passing".toList).isPrefixOf ((c1 :: cs1).dropWhile isWs) = true
          · rw [k3] at h
            simp only [if_true] at h
            injection h with hb
            subst hb
            obtain ⟨t2, ht2⟩ := List.isPrefixOf_iff_prefix.1 k3
            exact hbody _ t2 ht2.symm true (by simp [kwList])
          · rw [Bool.not_eq_true] at k3
            rw [k3] at h
            simp only [Bool.false_eq_true, if_false] at h
            by_cases k4 : ("failing".toList).isPrefixOf ((c1 :: cs1).dropWhile isWs) = true
            · rw [k4] at h
              simp only [if_true] at h
              injection h with hb
              subst hb
              obtain ⟨t2, ht2⟩ := List.isPrefixOf_iff_prefix.1 k4
              exact hbody _ t2 ht2.symm false (by simp [kwList])
            · rw [Bool.not_eq_true] at k4
              rw [k4] at h
              exact absurd h (by simp)

theorem mt3_complete : ∀ (l : List Char) (b : Bool),
    Tail3Decomp l b → matchTail3 l = some b := by
  intro l b hd
  obtain ⟨w1, w2, kw, t, hmem, hl, h1ne, h1all, h2ne, h2all⟩ := hd
  cases w1 with
  | nil => exact absurd rfl h1ne
  | cons c w1' =>
    cases w2 with
    | nil => exact absurd rfl h2ne
    | cons c2 w2' =>
      subst hl
      have hr : (((c :: w1') : List Char) ++ ("IF").toList ++ (c2 :: w2') ++ kw ++ t) =
          c :: (w1' ++ (("IF").toList ++ ((c2 :: w2') ++ (kw ++ t)))) := by
        simp [List.append_assoc]
      rw [hr]
      simp only [matchTail3]
      rw [if_pos (h1all c (List.mem_cons_self _ _))]
      have hdw : (c :: (w1' ++ (("IF").toList ++ ((c2 :: w2') ++ (kw ++ t))))).dropWhile isWs =
          ("IF").toList ++ ((c2 :: w2') ++ (kw ++ t)) := by
        rw [show (c :: (w1' ++ (("IF").toList ++ ((c2 :: w2') ++ (kw ++ t)))) : List Char) =
            (c :: w1') ++ (("IF").toList ++ ((c2 :: w2') ++ (kw ++ t))) from by simp,
          dropWhile_append_of_all isWs _ _ h1all]
        exact dropWhile_eq_self_of_head _ 'I' _ rfl rfl
      rw [hdw]
      rw [if_pos (List.isPrefixOf_iff_prefix.2 (List.prefix_append _ _))]
      rw [List.drop_left' (show (("IF").toList).length = 2 from rfl)]
      rw [show ((c2 :: w2') ++ (kw ++ t) : List Char) = c2 :: (w2' ++ (kw ++ t)) from by simp]
      simp only []
      rw [if_pos (h2all c2 (List.mem_cons_self _ _))]
      have hdw2 : (c2 :: (w2' ++ (kw ++ t))).dropWhile isWs = kw ++ t := by
        rw [show (c2 :: (w2' ++ (kw ++ t)) : List Char) = (c2 :: w2') ++ (kw ++ t) from by simp,
          dropWhile_append_of_all isWs _ _ h2all]
        simp only [kwList, List.mem_cons, List.not_mem_nil, or_false] at hmem
        rcases hmem with h | h | h | h <;> (injection h with hkw hb; subst hkw) <;>
          exact dropWhile_eq_self_of_head _ _ _ rfl rfl
      rw [hdw2]
      simp only [kwList, List.mem_cons, List.not_mem_nil, or_false] at hmem
      rcases hmem with h | h | h | h <;> (injection h with hkw hb; subst hkw; subst hb)
      · rw [if_pos (List.isPrefixOf_iff_prefix.2 (List.prefix_append _ _))]
      · rw [show (("success").toList.isPrefixOf (("failure").toList ++ t)) = false from rfl]
        simp only [Bool.false_eq_true, if_false]
        rw [if_pos (List.isPrefixOf_iff_prefix.2 (List.prefix_append _ _))]
      · rw [show (("success").toList.isPrefixOf (("passing").toList ++ t)) = false from rfl,
          show (("failure").toList.isPrefixOf (("passing").toList ++ t)) = false from rfl]
        simp only [Bool.false_eq_true, if_false]
        rw [if_pos (List.isPrefixOf_iff_prefix.2 (List.prefix_append _ _))]
      · rw [show (("success").toList.isPrefixOf (("failing").toList ++ t)) = false from rfl,
          show (("failure").toList.isPrefixOf (("failing").toList ++ t)) = false from rfl,
          show (("passing").toList.isPrefixOf (("failing").toList ++ t)) = false from rfl]
        simp only [Bool.false_eq_true, if_false]
        rw [if_pos (List.isPrefixOf_iff_prefix.2 (List.prefix_append _ _))]

/-- Declarative shape of a tail accepted by `matchTail2`: whitespace, the
literal `IF_CONTAINS`, an optionally-spaced parenthesized quoted value,
then only whitespace to the end.  The two quote characters need not
agree, exactly as in the source regex. -/
def Tail2Decomp (l : List Char) (v : List Char) : Prop :=
  ∃ (w w1 w2 w3 w4 : List Char) (q1 q2 : Char),
    l = w ++ ("IF_CONTAINS").toList ++ w1 ++ ['('] ++ w2 ++ [q1] ++ v ++ [q2] ++ w3 ++
      [')'] ++ w4 ∧
    w ≠ [] ∧ (∀ c ∈ w, isWs c = true) ∧ (∀ c ∈ w1, isWs c = true) ∧
    (∀ c ∈ w2, isWs c = true) ∧ (∀ c ∈ w3, isWs c = true) ∧ (∀ c ∈ w4, isWs c = true) ∧
    isQuote q1 = true ∧ isQuote q2 = true ∧ v ≠ [] ∧ (∀ c ∈ v, isQuote c = false)

theorem mt2_sound : ∀ (l v : List Char),
    matchTail2 l = some v → Tail2Decomp l v := by
  intro l v h
  cases l with
  | nil => simp [matchTail2] at h
  | cons c cs =>
    simp only [matchTail2] at h
    by_cases hws : isWs c = true
    swap
    · rw [if_neg hws] at h
      exact absurd h (by simp)
    rw [if_pos hws] at h
    by_cases hp : ("IF_CONTAINS".toList).isPrefixOf ((c :: cs).dropWhile isWs) = true
    swap
    · rw [Bool.not_eq_true] at hp
      rw [hp] at h
      exact absurd h (by simp)
    rw [hp] at h
    simp only [if_true] at h
    obtain ⟨rest, hrest⟩ := List.isPrefixOf_iff_prefix.1 hp
    have hd11 : ((c :: cs).dropWhile isWs).drop 11 = rest := by
      rw [← hrest]
      exact List.drop_left' (by rfl)
    rw [hd11] at h
    cases hm1 : rest.dropWhile isWs with
    | nil => rw [hm1] at h; exact absurd h (by simp)
    | cons c2 r2 =>
      rw [hm1] at h
      simp only [] at h
      by_cases hc2 : c2 = '('
      swap
      · rw [if_neg hc2] at h
        exact absurd h (by simp)
      rw [if_pos hc2] at h
      subst hc2
      cases hm2 : r2.dropWhile isWs with
      | nil => rw [hm2] at h; exact absurd h (by simp)
      | cons q r4 =>
        rw [hm2] at h
        simp only [] at h
        by_cases hq : isQuote q = true
        swap
        · rw [if_neg hq] at h
          exact absurd h (by simp)
        rw [if_pos hq] at h
        by_cases hv : (r4.takeWhile (fun d => !(isQuote d))).isEmpty = true
        · rw [if_pos hv] at h
          exact absurd h (by simp)
        rw [if_neg hv] at h
        cases hm3 : r4.drop (r4.takeWhile (fun d => !(isQuote d))).length with
        | nil => rw [hm3] at h; exact absurd h (by simp)
        | cons d r6 =>
          rw [hm3] at h
          simp only [] at h
          cases hm4 : r6.dropWhile isWs with
          | nil => rw [hm4] at h; exact absurd h (by simp)
          | cons c3 r8 =>
            rw [hm4] at h
            simp only [] at h
            by_cases hc3 : c3 = ')'
            swap
            · rw [if_neg hc3] at h
              exact absurd h (by simp)
            rw [if_pos hc3] at h
            subst hc3
            by_cases h8 : r8.all isWs = true
            swap
            · rw [Bool.not_eq_true] at h8
              rw [h8] at h
              exact absurd h (by simp)
            rw [h8] at h
            simp only [if_true, Option.some.injEq] at h
            subst h
            -- assemble the decomposition
            have hr4v : r4 = (r4.takeWhile (fun d => !(isQuote d))) ++ (d :: r6) := by
              obtain ⟨s, hs⟩ := (List.takeWhile_prefix (fun d => !(isQuote d)) :
                (r4.takeWhile (fun d => !(isQuote d))) <+: r4)
              have htake := List.take_left (r4.takeWhile (fun d => !(isQuote d))) s
              rw [hs] at htake
              conv_lhs => rw [← List.take_append_drop
                ((r4.takeWhile (fun d => !(isQuote d))).length) r4]
              rw [hm3, htake]
            have hdq : isQuote d = true := by
              have hdw : r4.dropWhile (fun e => !(isQuote e)) = d :: r6 := by
                have h1 := List.takeWhile_append_dropWhile (fun e => !(isQuote e)) r4
                have h2 := hr4v
                conv_lhs at h2 => rw [← h1]
                exact List.append_cancel_left h2
              have := dropWhile_head_false (fun e => !(isQuote e)) r4 d r6 hdw
              simpa using this
            have hrest2 : rest = rest.takeWhile isWs ++ ['('] ++ r2 := by
              conv_lhs => rw [← List.takeWhile_append_dropWhile isWs rest, hm1]
              simp
            have hr2d : r2 = r2.takeWhile isWs ++ [q] ++ r4 := by
              conv_lhs => rw [← List.takeWhile_append_dropWhile isWs r2, hm2]
              simp
            have hr6d : r6 = r6.takeWhile isWs ++ [')'] ++ r8 := by
              conv_lhs => rw [← List.takeWhile_append_dropWhile isWs r6, hm4]
              simp
            refine ⟨(c :: cs).takeWhile isWs, rest.takeWhile isWs, r2.takeWhile isWs,
              r6.takeWhile isWs, r8, q, d, ?_,
              takeWhile_ne_nil_of_head cs hws,
              fun x hx => List.mem_takeWhile_imp hx,
              fun x hx => List.mem_takeWhile_imp hx,
              fun x hx => List.mem_takeWhile_imp hx,
              fun x hx => List.mem_takeWhile_imp hx,
              List.all_eq_true.1 h8, hq, hdq,
              by simpa [List.isEmpty_iff] using hv,
              fun x hx => by simpa using List.mem_takeWhile_imp hx⟩
            conv_lhs => rw [← List.takeWhile_append_dropWhile isWs (c :: cs),
              ← hrest, hrest2]
            conv_lhs => rw [hr2d, hr4v]
            conv_lhs => rw [hr6d]
            simp [List.append_assoc]

theorem isWs_of_quote (c : Char) (h : isQuote c = true) : isWs c = false := by
  have h2 : c = '"' ∨ c = '\'' := by
    simpa [isQuote] using h
  rcases h2 with rfl | rfl <;> rfl

theorem takeWhile_append_of_all (p : Char → Bool) :
    ∀ (v r : List Char), (∀ c ∈ v, p c = true) →
      (v ++ r).takeWhile p = v ++ r.takeWhile p := by
  intro v
  induction v with
  | nil => intro r _; rfl
  | cons c v' ih =>
    intro r h
    rw [List.cons_append, List.takeWhile_cons, h c (List.mem_cons_self c v')]
    simp only [if_true]
    rw [ih r (fun x hx => h x (List.mem_cons_of_mem c hx))]
    rfl

theorem mt2_complete : ∀ (l v : List Char),
    Tail2Decomp l v → matchTail2 l = some v := by
  intro l v hd
  obtain ⟨w, w1, w2, w3, w4, q1, q2, hl, hwne, hwall, h1all, h2all, h3all, h4all,
    hq1, hq2, hvne, hvnq⟩ := hd
  cases w with
  | nil => exact absurd rfl hwne
  | cons c w' =>
    subst hl
    have hr : (((c :: w') : List Char) ++ ("IF_CONTAINS").toList ++ w1 ++ ['('] ++ w2 ++
        [q1] ++ v ++ [q2] ++ w3 ++ [')'] ++ w4) =
        c :: (w' ++ (("IF_CONTAINS").toList ++
          (w1 ++ ('(' :: (w2 ++ (q1 :: (v ++ (q2 :: (w3 ++ (')' :: w4)))))))))) := by
      simp [List.append_assoc]
    rw [hr]
    simp only [matchTail2]
    rw [if_pos (hwall c (List.mem_cons_self _ _))]
    have hdw : ((c :: (w' ++ (("IF_CONTAINS").toList ++
        (w1 ++ ('(' :: (w2 ++ (q1 :: (v ++ (q2 :: (w3 ++ (')' :: w4)))))))))) :
          List Char)).dropWhile isWs =
        ("IF_CONTAINS").toList ++
          (w1 ++ ('(' :: (w2 ++ (q1 :: (v ++ (q2 :: (w3 ++ (')' :: w4)))))))) := by
      rw [show (c :: (w' ++ (("IF_CONTAINS").toList ++
          (w1 ++ ('(' :: (w2 ++ (q1 :: (v ++ (q2 :: (w3 ++ (')' :: w4)))))))))) : List Char) =
          (c :: w') ++ (("IF_CONTAINS").toList ++
            (w1 ++ ('(' :: (w2 ++ (q1 :: (v ++ (q2 :: (w3 ++ (')' :: w4))))))))) from by simp,
        dropWhile_append_of_all isWs _ _ hwall]
      exact dropWhile_eq_self_of_head _ 'I' _ rfl rfl
    rw [hdw]
    rw [if_pos (List.isPrefixOf_iff_prefix.2 (List.prefix_append _ _))]
    rw [List.drop_left' (show (("IF_CONTAINS").toList).length = 11 from rfl)]
    have hdw1 : ((w1 ++ ('(' :: (w2 ++ (q1 :: (v ++ (q2 :: (w3 ++ (')' :: w4)))))))) :
        List Char).dropWhile isWs =
        '(' :: (w2 ++ (q1 :: (v ++ (q2 :: (w3 ++ (')' :: w4)))))) := by
      rw [dropWhile_append_of_all isWs _ _ h1all]
      exact dropWhile_cons_of_false _ rfl
    rw [hdw1]
    simp only []
    rw [if_pos trivial]
    have hdw2 : ((w2 ++ (q1 :: (v ++ (q2 :: (w3 ++ (')' :: w4)))))) :
        List Char).dropWhile isWs = q1 :: (v ++ (q2 :: (w3 ++ (')' :: w4)))) := by
      rw [dropWhile_append_of_all isWs _ _ h2all]
      exact dropWhile_cons_of_false _ (isWs_of_quote q1 hq1)
    rw [hdw2]
    simp only []
    rw [if_pos hq1]
    have htk : ((v ++ (q2 :: (w3 ++ (')' :: w4)))) :
        List Char).takeWhile (fun d => !(isQuote d)) = v := by
      rw [takeWhile_append_of_all (fun d => !(isQuote d)) v _
        (fun x hx => by simp [hvnq x hx])]
      simp [List.takeWhile_cons, hq2]
    rw [htk]
    rw [if_neg (by simpa [List.isEmpty_iff] using hvne)]
    rw [show ((v ++ (q2 :: (w3 ++ (')' :: w4)))) : List Char).drop v.length =
        q2 :: (w3 ++ (')' :: w4)) from List.drop_left v _]
    simp only []
    have hdw3 : ((w3 ++ (')' :: w4)) : List Char).dropWhile isWs = ')' :: w4 := by
      rw [dropWhile_append_of_all isWs _ _ h3all]
      exact dropWhile_cons_of_false _ rfl
    rw [hdw3]
    simp only []
    rw [if_pos trivial]
    rw [List.all_eq_true.2 h4all]
    rfl

/-- Minimality of the lazy group search: the group it returns is no longer
than any other group (at the same starting position) whose remainder the
tail matcher accepts. -/
theorem groupSearch_min {α : Type} (tailm : List Char → Option α) :
    ∀ (l acc g : List Char) (a : α), groupSearch tailm acc l = some (g, a) →
      ∀ g2 rest2, l = g2 ++ rest2 → g2 ≠ [] → tailm rest2 ≠ none →
        g.length ≤ acc.length + g2.length := by
  intro l
  induction l with
  | nil => intro acc g a h; simp [groupSearch] at h
  | cons c cs ih =>
    intro acc g a h g2 rest2 hl hne htl
    rw [groupSearch] at h
    by_cases hnl : c = '\n'
    · rw [if_pos hnl] at h
      exact absurd h (by simp)
    · rw [if_neg hnl] at h
      cases ht : tailm cs with
      | some a2 =>
        rw [ht] at h
        simp only [Option.some.injEq, Prod.mk.injEq] at h
        obtain ⟨hg, -⟩ := h
        have h1 : 0 < g2.length := List.length_pos.2 hne
        rw [← hg, List.length_append]
        simp only [List.length_cons, List.length_nil]
        omega
      | none =>
        rw [ht] at h
        cases g2 with
        | nil => exact absurd rfl hne
        | cons gc g2' =>
          rw [List.cons_append] at hl
          injection hl with hc hcs
          subst hc
          cases g2' with
          | nil =>
            rw [List.nil_append] at hcs
            subst hcs
            exact absurd ht htl
          | cons gd g2'' =>
            have hrec := ih (acc ++ [c]) g a h (gd :: g2'') rest2 hcs (by simp) htl
            rw [List.length_append] at hrec
            simp only [List.length_cons, List.length_nil] at hrec ⊢
            omega

/-- Leftmost-lazy soundness of `regexCap`: the returned match starts at the
least possible starting position (no valid match starts strictly earlier),
and at that position its group is the shortest one the tail matcher
accepts — exactly the leftmost-match, lazy-group semantics of the source
regex. -/
theorem regexCap_leftmost {α : Type} (tailm : List Char → Option α) :
    ∀ (l g : List Char) (a : α), regexCap tailm l = some (g, a) →
      ∃ pre rest, l = pre ++ g ++ rest ∧ g ≠ [] ∧ (∀ c ∈ g, c ≠ '\n') ∧
        tailm rest = some a ∧
        (∀ pre2 g2 rest2, l = pre2 ++ g2 ++ rest2 → g2 ≠ [] →
          (∀ c ∈ g2, c ≠ '\n') → tailm rest2 ≠ none → pre.length ≤ pre2.length) ∧
        (∀ g2 rest2, g ++ rest = g2 ++ rest2 → g2 ≠ [] → tailm rest2 ≠ none →
          g.length ≤ g2.length) := by
  intro l
  induction l with
  | nil => intro g a h; simp [regexCap] at h
  | cons c cs ih =>
    intro g a h
    rw [regexCap] at h
    cases hg : groupSearch tailm [] (c :: cs) with
    | some r =>
      rw [hg] at h
      injection h with h
      subst h
      obtain ⟨gg, rest, hl, hgacc, hne, hnl, htl⟩ :=
        groupSearch_sound tailm (c :: cs) [] g a hg
      rw [List.nil_append] at hgacc
      subst hgacc
      refine ⟨[], rest, by rw [List.nil_append]; exact hl, hne, hnl, htl, ?_, ?_⟩
      · intro pre2 g2 rest2 _ _ _ _
        simp
      · intro g2 rest2 heq hne2 htl2
        have hmin := groupSearch_min tailm (c :: cs) [] g a hg g2 rest2
          (hl.trans heq) hne2 htl2
        simpa using hmin
    | none =>
      rw [hg] at h
      obtain ⟨pre, rest, hl, hne, hnl, htl, hleft, hlazy⟩ := ih g a h
      refine ⟨c :: pre, rest, by rw [hl]; rfl, hne, hnl, htl, ?_, hlazy⟩
      intro pre2 g2 rest2 hl2 hne2 hnl2 htl2
      cases pre2 with
      | nil =>
        rw [List.nil_append] at hl2
        exact absurd hg
          (groupSearch_complete tailm (c :: cs) [] ⟨g2, rest2, hl2, hne2, hnl2, htl2⟩)
      | cons pc pre2' =>
        rw [List.cons_append, List.cons_append] at hl2
        injection hl2 with hc hcs
        have hrec := hleft pre2' g2 rest2 hcs hne2 hnl2 htl2
        simp only [List.length_cons]
        omega

/-- A match of the first regex somewhere in the clause: an ignored prefix,
the captured group, then a `Tail1Decomp` remainder (which, by its shape,
runs to the end of the clause — the trailing-suffix property). -/
def P1Decomp (l g : List Char) (b : Bool) : Prop :=
  ∃ pre rest, l = pre ++ g ++ rest ∧ g ≠ [] ∧ (∀ c ∈ g, c ≠ '\n') ∧ Tail1Decomp rest b

/-- A match of the `IF_CONTAINS` regex: again anchored to the end of the
clause through `Tail2Decomp`. -/
def P2Decomp (l g v : List Char) : Prop :=
  ∃ pre rest, l = pre ++ g ++ rest ∧ g ≠ [] ∧ (∀ c ∈ g, c ≠ '\n') ∧ Tail2Decomp rest v

/-- A match of the natural-language regex: `Tail3Decomp` ends with an
arbitrary remainder, so the keyword may sit anywhere in the clause and
everything after it is discarded. -/
def P3Decomp (l g : List Char) (b : Bool) : Prop :=
  ∃ pre rest, l = pre ++ g ++ rest ∧ g ≠ [] ∧ (∀ c ∈ g, c ≠ '\n') ∧ Tail3Decomp rest b

/-- The condition produced for the success/failure regexes. -/
def condOf (b : Bool) : StepCondition :=
  ⟨"previous", if b then ConditionOperator.IfSuccess else ConditionOperator.IfFailure,
    none⟩

/-- C3 (amended): conditional-suffix extraction tries the three patterns
in the fixed priority order `IF_SUCCESS`/`IF_FAILURE`, then `IF_CONTAINS`
(double or single quotes), then natural-language `IF <keyword>`.  The
first two patterns match only as a trailing suffix of the clause (the
declarative decompositions `P1Decomp`/`P2Decomp` run to the end of the
clause), and each fires whenever its shape is present (conjuncts 1 and 3
are completeness statements; conjunct 3 also expresses the priority of
`IF_SUCCESS`/`IF_FAILURE` over `IF_CONTAINS`).  The natural-language
pattern matches anywhere: conjunct 4 pins the match to the leftmost
starting position admitting one (no decomposition with a valid tail has a
shorter discarded prefix) and, at that position, to the shortest captured
group; the body kept is exactly the trimmed group, so the `IF` keyword and
everything after it — and any newline-blocked prefix before the match
start — are discarded.  When no pattern matches, the step gets no
condition and the body is the whole clause text. -/
theorem claim_C3_suffix_extraction (l : List Char) :
    ((∃ g b, P1Decomp l g b) →
      ∃ g b, P1Decomp l g b ∧ condAndClean l = (some (condOf b), trimList g)) ∧
    (∀ v : String,
      (condAndClean l).1 = some ⟨"previous", ConditionOperator.IfContains, some v⟩ →
      ∃ g, P2Decomp l g v.data ∧ (condAndClean l).2 = trimList g) ∧
    (¬(∃ g b, P1Decomp l g b) → (∃ g v, P2Decomp l g v) →
      ∃ g v, P2Decomp l g v ∧
        condAndClean l =
          (some ⟨"previous", ConditionOperator.IfContains, some ⟨v⟩⟩, trimList g)) ∧
    (∀ b, (condAndClean l).1 = some (condOf b) → ¬(∃ g b2, P1Decomp l g b2) →
      ∃ pre g rest, l = pre ++ g ++ rest ∧ g ≠ [] ∧ (∀ c ∈ g, c ≠ '\n') ∧
        Tail3Decomp rest b ∧ (condAndClean l).2 = trimList g ∧
        (∀ pre2 g2 rest2 b2, l = pre2 ++ g2 ++ rest2 → g2 ≠ [] →
          (∀ c ∈ g2, c ≠ '\n') → Tail3Decomp rest2 b2 → pre.length ≤ pre2.length) ∧
        (∀ g2 rest2 b2, g ++ rest = g2 ++ rest2 → g2 ≠ [] →
          Tail3Decomp rest2 b2 → g.length ≤ g2.length)) ∧
    ((condAndClean l).1 = none →
      (condAndClean l).2 = l ∧ ¬(∃ g b, P1Decomp l g b) ∧
        ¬(∃ g v, P2Decomp l g v) ∧ ¬(∃ g b, P3Decomp l g b)) := by
  cases h1 : regexCap matchTail1 l with
  | some r =>
    obtain ⟨g1, b1⟩ := r
    have hP1 : P1Decomp l g1 b1 := by
      obtain ⟨pre, rest, hl, hne, hnl, ht⟩ := regexCap_sound matchTail1 l g1 b1 h1
      exact ⟨pre, rest, hl, hne, hnl, mt1_sound rest b1 ht⟩
    have hcc : condAndClean l = (some (condOf b1), trimList g1) := by
      rw [condAndClean, h1]
      rfl
    refine ⟨fun _ => ⟨g1, b1, hP1, hcc⟩, ?_, ?_, ?_, ?_⟩
    · intro v hv
      rw [hcc] at hv
      exfalso
      injection hv with hv
      cases b1 <;> simp [condOf] at hv
    · intro hnp1 _
      exact absurd ⟨g1, b1, hP1⟩ hnp1
    · intro b hb hnp1
      exact absurd ⟨g1, b1, hP1⟩ hnp1
    · intro hnone
      rw [hcc] at hnone
      exact absurd hnone (by simp)
  | none =>
    have hnoP1 : ¬ (∃ g b, P1Decomp l g b) := by
      rintro ⟨g, b, pre, rest, hl, hne, hnl, htd⟩
      exact regexCap_complete matchTail1 l
        ⟨pre, g, rest, hl, hne, hnl, by rw [mt1_complete rest b htd]; simp⟩ h1
    have hP2ne : (∃ g v, P2Decomp l g v) → regexCap matchTail2 l ≠ none := by
      rintro ⟨g, v, pre, rest, hl, hne, hnl, htd⟩
      exact regexCap_complete matchTail2 l
        ⟨pre, g, rest, hl, hne, hnl, by rw [mt2_complete rest v htd]; simp⟩
    cases h2 : regexCap matchTail2 l with
    | some r =>
      obtain ⟨g2, v2⟩ := r
      have hP2 : P2Decomp l g2 v2 := by
        obtain ⟨pre, rest, hl, hne, hnl, ht⟩ := regexCap_sound matchTail2 l g2 v2 h2
        exact ⟨pre, rest, hl, hne, hnl, mt2_sound rest v2 ht⟩
      have hcc : condAndClean l =
          (some ⟨"previous", ConditionOperator.IfContains, some ⟨v2⟩⟩, trimList g2) := by
        rw [condAndClean, h1, h2]
      refine ⟨fun hex => absurd hex hnoP1, ?_, ?_, ?_, ?_⟩
      · intro v hv
        rw [hcc] at hv
        injection hv with hv
        have hval : (⟨v2⟩ : String) = v := congrArg StepCondition.value hv |> Option.some.inj
        obtain ⟨pre, rest, hl, hne, hnl, ht⟩ := regexCap_sound matchTail2 l g2 v2 h2
        refine ⟨g2, ⟨pre, rest, hl, hne, hnl, ?_⟩, by rw [hcc]⟩
        rw [← hval]
        exact mt2_sound rest v2 ht
      · intro _ _
        exact ⟨g2, v2, hP2, hcc⟩
      · intro b hb _
        rw [hcc] at hb
        injection hb with hb
        exfalso
        cases b <;> simp [condOf] at hb
      · intro hnone
        rw [hcc] at hnone
        exact absurd hnone (by simp)
    | none =>
      cases h3 : regexCap matchTail3 l with
      | some r =>
        obtain ⟨g3, b3⟩ := r
        have hcc : condAndClean l = (some (condOf b3), trimList g3) := by
          rw [condAndClean, h1, h2, h3]
          rfl
        refine ⟨fun hex => absurd hex hnoP1, ?_, ?_, ?_, ?_⟩
        · intro v hv
          rw [hcc] at hv
          injection hv with hv
          exfalso
          cases b3 <;> simp [condOf] at hv
        · intro _ hex
          exact absurd h2 (hP2ne hex)
        · intro b hb _
          rw [hcc] at hb
          injection hb with hb
          have hb3 : b3 = b := by
            cases b <;> cases b3
            · rfl
            · exact absurd hb (by simp [condOf])
            · exact absurd hb (by simp [condOf])
            · rfl
          subst hb3
          obtain ⟨pre, rest, hl, hne, hnl, ht, hleft, hlazy⟩ :=
            regexCap_leftmost matchTail3 l g3 b3 h3
          refine ⟨pre, g3, rest, hl, hne, hnl, mt3_sound rest b3 ht, by rw [hcc], ?_, ?_⟩
          · intro pre2 g2 rest2 b2 hl2 hne2 hnl2 htd2
            exact hleft pre2 g2 rest2 hl2 hne2 hnl2
              (by rw [mt3_complete rest2 b2 htd2]; simp)
          · intro g2 rest2 b2 heq hne2 htd2
            exact hlazy g2 rest2 heq hne2 (by rw [mt3_complete rest2 b2 htd2]; simp)
        · intro hnone
          rw [hcc] at hnone
          exact absurd hnone (by simp)
      | none =>
        have hcc : condAndClean l = (none, l) := by
          rw [condAndClean, h1, h2, h3]
        have hnoP3 : ¬ (∃ g b, P3Decomp l g b) := by
          rintro ⟨g, b, pre, rest, hl, hne, hnl, htd⟩
          exact regexCap_complete matchTail3 l
            ⟨pre, g, rest, hl, hne, hnl, by rw [mt3_complete rest b htd]; simp⟩ h3
        have hnoP2 : ¬ (∃ g v, P2Decomp l g v) := fun hex => (hP2ne hex) h2
        refine ⟨fun hex => absurd hex hnoP1, ?_, ?_, ?_,
          fun _ => ⟨by rw [hcc], hnoP1, hnoP2, hnoP3⟩⟩
        · intro v hv
          rw [hcc] at hv
          exact absurd hv (by simp)
        · intro _ hex
          exact absurd h2 (hP2ne hex)
        · intro b hb _
          rw [hcc] at hb
          exact absurd hb (by simp)

theorem claim_C3_suffix_extraction_witness :
    ∃ g b, P1Decomp (("x IF_SUCCESS").toList) g b ∧
      condAndClean (("x IF_SUCCESS").toList) = (some (condOf b), trimList g) :=
  (claim_C3_suffix_extraction (("x IF_SUCCESS").toList)).1
    ⟨("x").toList, true, [], (" IF_SUCCESS").toList, (by decide), (by decide), (by decide),
      ⟨[' '], [], (by decide), (by decide), (by decide), (by decide)⟩⟩

/-- The clause of the C3 counterexample. -/
def cexC3 : List Char := ("x IF success now").toList

/-- C3 counterexample: the clause `"x IF success now"` ends with none of
the conditional-pattern terminators (no trailing `IF_SUCCESS`,
`IF_FAILURE`, keyword, or `)`; it is trimmed, so no trailing-whitespace
variant applies either), so under the claim as stated no pattern matches
and the clause should keep no condition and its full text.  The code
nevertheless extracts an `IfSuccess` condition and truncates the body to
`"x"`, discarding `" now"`: the natural-language pattern is not matched
as a trailing suffix. -/
theorem claim_C3_counterexample :
    (condAndClean cexC3).1 = some ⟨"previous", ConditionOperator.IfSuccess, none⟩ ∧
    (condAndClean cexC3).2 = ("x").toList ∧
    (condAndClean cexC3).2 ≠ cexC3 ∧
    (("IF_SUCCESS").toList).isSuffixOf cexC3 = false ∧
    (("IF_FAILURE").toList).isSuffixOf cexC3 = false ∧
    (("success").toList).isSuffixOf cexC3 = false ∧
    (("failure").toList).isSuffixOf cexC3 = false ∧
    (("passing").toList).isSuffixOf cexC3 = false ∧
    (("failing").toList).isSuffixOf cexC3 = false ∧
    ((")").toList).isSuffixOf cexC3 = false ∧
    trimList cexC3 = cexC3 := by decide

/-! ### C4: worker-id resolution -/

def notColon (c : Char) : Bool := c != ':'

theorem colonSplit_eq_takeWhile : ∀ l : List Char,
    colonSplit l =
      (if (l.takeWhile notColon).length = l.length then none
       else some (l.takeWhile notColon, l.drop ((l.takeWhile notColon).length + 1))) := by
  intro l
  induction l with
  | nil => rfl
  | cons c cs ih =>
    by_cases hc : c = ':'
    · subst hc
      have htw : ((':' :: cs : List Char).takeWhile notColon) = [] := by
        rw [List.takeWhile_cons]
        rfl
      rw [colonSplit, if_pos rfl, htw]
      rw [if_neg (by simp)]
      rfl
    · have hnc : notColon c = true := by
        rw [notColon, bne_iff_ne]
        exact hc
      have htw : ((c :: cs : List Char).takeWhile notColon) =
          c :: cs.takeWhile notColon := by
        rw [List.takeWhile_cons, hnc]
        simp
      rw [colonSplit, if_neg hc, ih, htw]
      by_cases hlen : (cs.takeWhile notColon).length = cs.length
      · rw [if_pos hlen, if_pos (by simp [hlen])]
        rfl
      · rw [if_neg hlen, if_neg (by simp only [List.length_cons]; omega),
          Option.map_some']
        simp only [List.length_cons, List.drop_succ_cons]

/-- The explicit-worker rule of the claim, amended to the source: the
first `':'` must be at a strictly positive byte offset under 30, and the
prefix — after trimming — must have no space character and byte length
under 30; then the trimmed prefix is the worker id and the trimmed
remainder the task. -/
def specExplicit (clean : List Char) : Option (String × String) :=
  if (clean.takeWhile notColon).length = clean.length then none
  else if 0 < byteLen (clean.takeWhile notColon) ∧
      byteLen (clean.takeWhile notColon) < 30 ∧
      !(trimList (clean.takeWhile notColon)).contains ' ' ∧
      byteLen (trimList (clean.takeWhile notColon)) < 30 then
    some (⟨trimList (clean.takeWhile notColon)⟩,
      ⟨trimList (clean.drop ((clean.takeWhile notColon).length + 1))⟩)
  else none

theorem explicitSplit_eq_spec (clean : List Char) :
    explicitSplit clean = specExplicit clean := by
  rw [explicitSplit, specExplicit, colonSplit_eq_takeWhile]
  by_cases h1 : ((clean.takeWhile notColon).length = clean.length)
  · rw [if_pos h1, if_pos h1]
  · rw [if_neg h1, if_neg h1]
    simp only []
    by_cases h2 : 0 < byteLen (clean.takeWhile notColon) ∧
        byteLen (clean.takeWhile notColon) < 30
    · rw [if_pos h2]
      by_cases h3 : (!(trimList (clean.takeWhile notColon)).contains ' ' &&
          decide (byteLen (trimList (clean.takeWhile notColon)) < 30)) = true
      · rw [if_pos h3]
        rw [Bool.and_eq_true] at h3
        rw [if_pos ⟨h2.1, h2.2, h3.1, of_decide_eq_true h3.2⟩]
      · rw [if_neg h3]
        rw [if_neg]
        intro hcon
        refine h3 ?_
        rw [Bool.and_eq_true]
        exact ⟨hcon.2.2.1, decide_eq_true hcon.2.2.2⟩
    · rw [if_neg h2]
      rw [if_neg]
      intro hcon
      exact h2 ⟨hcon.1, hcon.2.1⟩

/-- The `last_goblin_id` value after scanning the given clauses of a
phase, starting from the caller-supplied default. -/
def lastRawSeen (dflt : Option String) (cls : List (List Char)) : Option String :=
  cls.foldl (fun acc t => updateLast acc t) dflt

/-- The claim's (amended) per-clause description of worker resolution:
the clause's own explicit prefix on the suffix-stripped body, else the
worker id recorded from the raw text of the earlier clauses of the same
phase, else the caller-supplied default, else `"unknown"`; the task is
the explicit remainder or the whole body. -/
def specWorkerTask (dflt : Option String) (cls : List (List Char)) (j : Nat) :
    String × String :=
  match cls.get? j with
  | none => ("", "")
  | some clause =>
    match specExplicit (condAndClean clause).2 with
    | some (g, t) => (g, t)
    | none => ((lastRawSeen dflt (cls.take j)).getD ("unknown"),
        ⟨(condAndClean clause).2⟩)

theorem specWorkerTask_cons (dflt : Option String) (t : List Char)
    (ts : List (List Char)) (j : Nat) :
    specWorkerTask dflt (t :: ts) (j + 1) = specWorkerTask (updateLast dflt t) ts j := by
  rw [specWorkerTask, specWorkerTask]
  simp only [List.get?_cons_succ, List.take_succ_cons, lastRawSeen, List.foldl_cons]

/-- C4 (amended): for every clause of a phase, after suffix extraction the
step's worker id and task are: the explicit `prefix:` split of the body
when the body's first colon is at a strictly positive byte offset under 30
and the trimmed prefix has no space character and byte length under 30
(worker = trimmed prefix, task = trimmed remainder); otherwise the task is
the whole body and the worker id is the one recorded from the raw text of
the earlier clauses of the phase (a recording that inspects the clause
before suffix stripping and does not require a positive colon offset),
else the caller-supplied default, else `"unknown"`. -/
theorem claim_C4_worker_resolution (sup : IdSupply) (prevIds : List String) :
    ∀ (cls : List (List Char)) (n : Nat) (dflt : Option String) (j : Nat)
      (st : OrchestrationStep),
      (parseClauses sup prevIds n dflt cls).get? j = some st →
      st.goblin_id = (specWorkerTask dflt cls j).1 ∧
      st.task = (specWorkerTask dflt cls j).2 := by
  intro cls
  induction cls with
  | nil =>
    intro n dflt j st hst
    rw [parseClauses] at hst
    simp at hst
  | cons t ts ih =>
    intro n dflt j st hst
    rw [parseClauses] at hst
    cases j with
    | zero =>
      rw [List.get?_cons_zero] at hst
      injection hst with hst
      subst hst
      rw [specWorkerTask]
      simp only [List.get?_cons_zero]
      show (parseTask (sup.stepId n) dflt t).goblin_id = _ ∧
        (parseTask (sup.stepId n) dflt t).task = _
      rw [parseTask]
      rw [← explicitSplit_eq_spec]
      rcases h : explicitSplit (condAndClean t).2 with _ | ⟨g, tk⟩ <;>
        simp [h, lastRawSeen]
    | succ j =>
      rw [List.get?_cons_succ] at hst
      rw [specWorkerTask_cons]
      exact ih (n + 1) (updateLast dflt t) j st hst

theorem claim_C4_worker_resolution_witness :
    ∃ st, (parseClauses natSupply [] 0 (some ("w"))
        [("a: one").toList, ("two").toList]).get? 1 = some st ∧
      (st.goblin_id = (specWorkerTask (some ("w"))
        [("a: one").toList, ("two").toList] 1).1 ∧
       st.task = (specWorkerTask (some ("w"))
        [("a: one").toList, ("two").toList] 1).2) :=
  ⟨_, rfl, claim_C4_worker_resolution natSupply []
    [("a: one").toList, ("two").toList] 0 (some ("w")) 1 _ rfl⟩

/-- The clause of the C4 counterexample. -/
def cexC4 : List Char := (": x").toList

/-- C4 counterexample: the clause `": x"` has its first colon at byte
offset 0, which is under 30, and the prefix before it is empty — no space,
byte length 0, under 30 — so under the claim as stated the empty prefix
would become the worker id and `"x"` the task.  The code requires a
strictly positive offset: the step keeps the whole body `": x"` as its
task and falls back to the supplied default worker `"w"`. -/
theorem claim_C4_counterexample :
    (parseTask ("sid") (some ("w")) cexC4).goblin_id = "w" ∧
    (parseTask ("sid") (some ("w")) cexC4).task = ": x" ∧
    (parseTask ("sid") (some ("w")) cexC4).goblin_id ≠ "" ∧
    (parseTask ("sid") (some ("w")) cexC4).task ≠ "x" ∧
    byteLen (cexC4.takeWhile notColon) = 0 ∧
    (trimList (cexC4.takeWhile notColon)).contains ' ' = false ∧
    (getPlan (compile natSupply (": x") (some ("w")))).steps.map
      (fun s => (s.goblin_id, s.task)) = [("w", ": x")] := by
  refine ⟨rfl, rfl, by decide, by decide, rfl, rfl, by decide⟩

end GoblinOS
